import Mathlib

/-!
Verification of the layout-binding engine of the demo repository.

The engine lives in one source file that defines three tldraw extensions:
ContainerShapeUtil and ElementShapeUtil (custom shapes) and LayoutBindingUtil
(the layout relationship between a container and its member elements).

Shallow embedding conventions:
* Coordinates and size props are rationals.  JavaScript numbers are binary
  floating point values, every one of which is a rational number; the model
  ignores rounding of arithmetic, as the spec does.
* All shapes of the demo live directly on the page and are never rotated, so
  a shape's page transform is the translation by its (x, y) and the parent
  space of every shape is the page itself.  The framework transform helpers
  (getShapePageTransform, getPointInParentSpace) are modelled accordingly.
* The fractional order key space of the external allocator (the IndexKey
  strings of the framework) is modelled by rationals; getIndexBetween is
  modelled at its contract: it yields a key strictly between its two given
  neighbours, strictly below the upper bound when the lower one is absent,
  and strictly above the lower bound when the upper one is absent.
* Record ids are naturals.  createBindingId is modelled by a fresh-id counter
  carried in the editor state.
-/

/-- CONTAINER_PADDING from the source. -/
def CONTAINER_PADDING : ℚ := 24

/-- Math.round of JavaScript: round half away from zero toward positive
infinity, that is the floor of the value plus one half. -/
def jsRound (q : ℚ) : ℤ := ⌊q + 1 / 2⌋

/-- clamp of the framework: clamp a value into the closed interval. -/
def jsClamp (v lo hi : ℤ) : ℤ := if v < lo then lo else if v > hi then hi else v

/-- The external fractional-index allocator getIndexBetween, modelled at its
contract over the rational key space: a key strictly between the two given
neighbours, an absent neighbour being an open end. -/
def getIndexBetween : Option ℚ → Option ℚ → ℚ
  | none, none => 0
  | some lo, none => lo + 1
  | none, some hi => hi - 1
  | some lo, some hi => (lo + hi) / 2

/-- A shape record: container shapes carry props width and height, element
shapes carry props w and h; both are width and height here.  The stype field
is the type tag of the record (the source strings are "container" and
"element"). -/
structure Shape where
  id : ℕ
  stype : String
  x : ℚ
  y : ℚ
  width : ℚ
  height : ℚ
  deriving DecidableEq, Repr

/-- A layout binding record: fromId is the container, toId the element,
props are the fractional index key and the placeholder flag. -/
structure Binding where
  id : ℕ
  fromId : ℕ
  toId : ℕ
  index : ℚ
  placeholder : Bool
  deriving DecidableEq, Repr

/-- The store of the editor: the shape records, the binding records and the
fresh-id counter modelling createBindingId. -/
structure EditorState where
  shapes : List Shape
  bindings : List Binding
  nextBindingId : ℕ
  deriving DecidableEq, Repr

/-- Look a shape up by id (editor.getShape). -/
def findShape : List Shape → ℕ → Option Shape
  | [], _ => none
  | s :: rest, i => if s.id = i then some s else findShape rest i

/-- editor.getShape on the modelled store. -/
def getShape (st : EditorState) (i : ℕ) : Option Shape := findShape st.shapes i

/-- editor.getBindingsFromShape(shape, 'layout'): all layout bindings whose
fromId is the given shape id, in store order. -/
def bindingsFromList : List Binding → ℕ → List Binding
  | [], _ => []
  | b :: rest, i =>
    if b.fromId = i then b :: bindingsFromList rest i else bindingsFromList rest i

def bindingsFrom (st : EditorState) (i : ℕ) : List Binding := bindingsFromList st.bindings i

/-- editor.getBindingsToShape(shape, 'layout'): all layout bindings whose
toId is the given shape id, in store order. -/
def bindingsToList : List Binding → ℕ → List Binding
  | [], _ => []
  | b :: rest, i =>
    if b.toId = i then b :: bindingsToList rest i else bindingsToList rest i

def bindingsTo (st : EditorState) (i : ℕ) : List Binding := bindingsToList st.bindings i

/-- Insert a binding into a list sorted by ascending index key. -/
def insertByIndex (b : Binding) : List Binding → List Binding
  | [] => [b]
  | a :: rest => if b.index ≤ a.index then b :: a :: rest else a :: insertByIndex b rest

/-- The sort .sort((a, b) => (a.props.index > b.props.index ? 1 : -1)) of the
source: order the bindings by ascending index key.  The comparator never
declares a tie, so any order consistent with the non-strict key order is a
faithful model; insertion sort realises one. -/
def sortBindings : List Binding → List Binding
  | [] => []
  | a :: rest => insertByIndex a (sortBindings rest)

/-- ContainerShapeUtil.canBind from the source: a layout binding may only go
from a container shape to an element shape. -/
def ContainerShapeUtil_canBind (fromShapeType toShapeType bindingType : String) : Prop :=
  fromShapeType = "container" ∧ toShapeType = "element" ∧ bindingType = "layout"

/-- ElementShapeUtil.canBind from the source: the same predicate. -/
def ElementShapeUtil_canBind (fromShapeType toShapeType bindingType : String) : Prop :=
  fromShapeType = "container" ∧ toShapeType = "element" ∧ bindingType = "layout"

instance (f t b : String) : Decidable (ContainerShapeUtil_canBind f t b) := by
  unfold ContainerShapeUtil_canBind; infer_instance

instance (f t b : String) : Decidable (ElementShapeUtil_canBind f t b) := by
  unfold ElementShapeUtil_canBind; infer_instance

/-- The canBind predicate the framework consults for the util of a given
shape type: the two custom utils use their overridden predicate, every other
shape type keeps the permissive default of the framework base class. -/
def shapeUtilCanBind (sty f t b : String) : Prop :=
  if sty = "container" then ContainerShapeUtil_canBind f t b
  else if sty = "element" then ElementShapeUtil_canBind f t b
  else True

instance (sty f t b : String) : Decidable (shapeUtilCanBind sty f t b) := by
  unfold shapeUtilCanBind; infer_instance

/-- editor.canBindShapes({fromShape, toShape, binding: 'layout'}): both the
from shape's util and the to shape's util must accept the triple. -/
def canBindShapes (fromShape toShape : Shape) : Prop :=
  shapeUtilCanBind fromShape.stype fromShape.stype toShape.stype "layout" ∧
    shapeUtilCanBind toShape.stype fromShape.stype toShape.stype "layout"

instance (a b : Shape) : Decidable (canBindShapes a b) := by
  unfold canBindShapes; infer_instance

/-- Point containment in the rectangle geometry of a shape (Rectangle2d with
isFilled, queried with hitInside). -/
def containsPoint (s : Shape) (px py : ℚ) : Prop :=
  s.x ≤ px ∧ px ≤ s.x + s.width ∧ s.y ≤ py ∧ py ≤ s.y + s.height

instance (s : Shape) (px py : ℚ) : Decidable (containsPoint s px py) := by
  unfold containsPoint; infer_instance

/-- editor.getShapeAtPoint(point, {hitInside, filter}): the topmost shape
containing the point and passing the filter.  Store order is render order, so
the topmost match is the last one in the list. -/
def topShapeAt : List Shape → Shape → ℚ → ℚ → Option Shape
  | [], _, _, _ => none
  | s :: rest, e, px, py =>
    match topShapeAt rest e px py with
    | some r => some r
    | none => if canBindShapes s e ∧ containsPoint s px py then some s else none

/-- ElementShapeUtil.getTargetContainer: the container shape the element is
being dropped on. -/
def getTargetContainer (st : EditorState) (e : Shape) (px py : ℚ) : Option Shape :=
  topShapeAt st.shapes e px py

/-- The page anchor of a dragged element: its page transform applied to the
point (50, 50), the centre of the 100 by 100 element. -/
def elementAnchor (e : Shape) : ℚ × ℚ := (e.x + 50, e.y + 50)

/-- List access returning none out of range, mirroring the undefined result
of a JavaScript out-of-range array access. -/
def listGet? : List Binding → ℤ → Option Binding
  | [], _ => none
  | b :: rest, i => if i < 0 then none else if i = 0 then some b else listGet? rest (i - 1)

/-- ElementShapeUtil.getBindingIndexForPosition from the source: sort all the
layout bindings from the container by ascending index key, count the siblings
that do not involve the dragged element, clamp the rounded slot position of
the anchor into [0, siblings + 1], pick the below and above neighbours at the
slot positions of the unfiltered sorted list, reuse the element's own key if
a neighbour is its own binding and otherwise allocate a key between the
neighbours. -/
def getBindingIndexForPosition (st : EditorState) (e : Shape) (container : Shape)
    (anchorX : ℚ) : ℚ :=
  let allBindings := sortBindings (bindingsFrom st container.id)
  let siblings := allBindings.filter (fun b => decide (b.toId ≠ e.id))
  let order : ℤ :=
    jsClamp (jsRound ((anchorX - container.x - CONTAINER_PADDING) / (100 + CONTAINER_PADDING)))
      0 (siblings.length + 1)
  let belowSib := listGet? allBindings (order - 1)
  let aboveSib := listGet? allBindings order
  match belowSib, aboveSib with
  | some bb, ab =>
    if bb.toId = e.id then bb.index
    else
      match ab with
      | some aa =>
        if aa.toId = e.id then aa.index else getIndexBetween (some bb.index) (some aa.index)
      | none => getIndexBetween (some bb.index) none
  | none, some aa =>
    if aa.toId = e.id then aa.index else getIndexBetween none (some aa.index)
  | none, none => getIndexBetween none none

/-- editor.updateShape writing a new position (x, y) for the shape of the
given id, leaving its other fields alone. -/
def updateShapePos (st : EditorState) (i : ℕ) (px py : ℚ) : EditorState :=
  { st with shapes := st.shapes.map (fun s => if s.id = i then { s with x := px, y := py } else s) }

/-- editor.updateShape writing new size props for the shape of the given id,
leaving its other fields alone. -/
def updateShapeSize (st : EditorState) (i : ℕ) (w h : ℚ) : EditorState :=
  { st with shapes :=
      st.shapes.map (fun s => if s.id = i then { s with width := w, height := h } else s) }

/-- editor.updateBinding: replace the binding record of the same id. -/
def updateBindingRecord (st : EditorState) (b : Binding) : EditorState :=
  { st with bindings := st.bindings.map (fun a => if a.id = b.id then b else a) }

/-- editor.createBinding with a fresh id from the counter. -/
def createBindingRecord (st : EditorState) (b : Binding) : EditorState :=
  { st with bindings := st.bindings ++ [b], nextBindingId := st.nextBindingId + 1 }

/-- Drop the binding records whose ids occur in the given list. -/
def removeByIds : List Binding → List ℕ → List Binding
  | [], _ => []
  | b :: rest, ids => if b.id ∈ ids then removeByIds rest ids else b :: removeByIds rest ids

/-- The member loop of LayoutBindingUtil.updateElementsForContainer: walk the
sorted bindings with their position, skip the member of the triggering
binding while the trigger is a placeholder, skip missing member shapes, or
write the slot position (computed through the container's page transform,
looked up in the current store as the editor does) when it differs from the
current one.  The boolean records whether any shape write happened. -/
def reflowLoop (containerId toId : ℕ) (placeholder : Bool) :
    List Binding → ℕ → EditorState → Bool → EditorState × Bool
  | [], _, st, wrote => (st, wrote)
  | b :: rest, i, st, wrote =>
    if toId = b.toId ∧ placeholder = true then
      reflowLoop containerId toId placeholder rest (i + 1) st wrote
    else
      match getShape st b.toId, getShape st containerId with
      | some s, some c =>
        let px := c.x + (CONTAINER_PADDING + (i : ℚ) * (100 + CONTAINER_PADDING))
        let py := c.y + CONTAINER_PADDING
        if s.x ≠ px ∨ s.y ≠ py then
          reflowLoop containerId toId placeholder rest (i + 1) (updateShapePos st b.toId px py) true
        else reflowLoop containerId toId placeholder rest (i + 1) st wrote
      | _, _ => reflowLoop containerId toId placeholder rest (i + 1) st wrote

/-- LayoutBindingUtil.updateElementsForContainer from the source: resolve the
container of the triggering binding, collect its sorted layout bindings, stop
when there are none, reposition the members, then resize the container to the
padded row formula when the stored size differs.  The boolean records whether
any shape write happened. -/
def updateElementsForContainer (st : EditorState) (trigger : Binding) : EditorState × Bool :=
  match getShape st trigger.fromId with
  | none => (st, false)
  | some container =>
    let bindings := sortBindings (bindingsFrom st container.id)
    if bindings.length = 0 then (st, false)
    else
      let r := reflowLoop container.id trigger.toId trigger.placeholder bindings 0 st false
      let width : ℚ :=
        CONTAINER_PADDING + ((bindings.length : ℚ) * 100 + ((bindings.length : ℚ) - 1) *
          CONTAINER_PADDING) + CONTAINER_PADDING
      let height : ℚ := CONTAINER_PADDING + 100 + CONTAINER_PADDING
      if width ≠ container.width ∨ height ≠ container.height then
        (updateShapeSize r.1 container.id width height, true)
      else r

/-- LayoutBindingUtil.onAfterCreate: reflow for the created binding. -/
def onAfterCreate (st : EditorState) (binding : Binding) : EditorState :=
  (updateElementsForContainer st binding).1

/-- LayoutBindingUtil.onAfterChange: reflow for the binding after the change. -/
def onAfterChange (st : EditorState) (bindingAfter : Binding) : EditorState :=
  (updateElementsForContainer st bindingAfter).1

/-- LayoutBindingUtil.onAfterChangeFromShape: reflow when the from shape of a
binding, the container, has changed. -/
def onAfterChangeFromShape (st : EditorState) (binding : Binding) : EditorState :=
  (updateElementsForContainer st binding).1

/-- LayoutBindingUtil.onAfterDelete: reflow for the deleted binding. -/
def onAfterDelete (st : EditorState) (binding : Binding) : EditorState :=
  (updateElementsForContainer st binding).1

/-- The optional lifecycle handlers a BindingUtil may override.  The base
class of the framework leaves every one of them unset. -/
structure RegisteredBindingHooks where
  afterCreate : Option (EditorState → Binding → EditorState)
  afterChange : Option (EditorState → Binding → EditorState)
  afterChangeFromShape : Option (EditorState → Binding → EditorState)
  afterChangeToShape : Option (EditorState → Binding → EditorState)
  afterDelete : Option (EditorState → Binding → EditorState)

/-- The handlers LayoutBindingUtil actually overrides: create, change, change
of the from shape, and delete.  No handler for a change of the to shape (the
bound element) is overridden. -/
def layoutBindingUtilHooks : RegisteredBindingHooks where
  afterCreate := some onAfterCreate
  afterChange := some onAfterChange
  afterChangeFromShape := some onAfterChangeFromShape
  afterChangeToShape := none
  afterDelete := some onAfterDelete

/-- editor.deleteBindings followed by the onAfterDelete reactions: remove the
records, then reflow once per deleted binding. -/
def deleteBindingsAndReflow (st : EditorState) (bs : List Binding) : EditorState :=
  let st1 : EditorState := { st with bindings := removeByIds st.bindings (bs.map Binding.id) }
  bs.foldl onAfterDelete st1

/-- ElementShapeUtil.onTranslateStart: every layout binding to the dragged
element becomes a placeholder; each update fires onAfterChange. -/
def onTranslateStart (st : EditorState) (eid : ℕ) : EditorState :=
  let toUpdate := (bindingsTo st eid).map (fun b => { b with placeholder := true })
  toUpdate.foldl (fun s b => onAfterChange (updateBindingRecord s b) b) st

/-- The body of ElementShapeUtil.onTranslate, run after the framework has
moved the dragged shape: find the anchor, resolve the target container,
delete all the element's bindings when there is none, otherwise compute the
slot key and update or create the binding to the target with placeholder
true, firing the binding lifecycle reactions. -/
def onTranslateBody (st : EditorState) (eid : ℕ) : EditorState :=
  match getShape st eid with
  | none => st
  | some e =>
    let anchor := elementAnchor e
    match getTargetContainer st e anchor.1 anchor.2 with
    | none => deleteBindingsAndReflow st (bindingsTo st eid)
    | some targetContainer =>
      let index := getBindingIndexForPosition st e targetContainer anchor.1
      match (bindingsFrom st targetContainer.id).find? (fun b => decide (b.toId = eid)) with
      | some existingBinding =>
        if existingBinding.index = index then st
        else
          let b := { existingBinding with placeholder := true, index := index }
          onAfterChange (updateBindingRecord st b) b
      | none =>
        let b : Binding :=
          { id := st.nextBindingId, fromId := targetContainer.id, toId := eid,
            index := index, placeholder := true }
        onAfterCreate (createBindingRecord st b) b

/-- The framework's translation of the dragged shape to a new position. -/
def moveShape (st : EditorState) (eid : ℕ) (px py : ℚ) : EditorState :=
  updateShapePos st eid px py

/-- One onTranslate update of a drag: the framework moves the element, then
the handler runs. -/
def translateMove (st : EditorState) (eid : ℕ) (px py : ℚ) : EditorState :=
  onTranslateBody (moveShape st eid px py) eid

/-- The body of ElementShapeUtil.onTranslateEnd: repeat the target and slot
computation at the element's current position; with no target return
unchanged, otherwise delete every binding to the element and create one
fresh committed binding to the target, firing the lifecycle reactions. -/
def onTranslateEndBody (st : EditorState) (eid : ℕ) : EditorState :=
  match getShape st eid with
  | none => st
  | some e =>
    let anchor := elementAnchor e
    match getTargetContainer st e anchor.1 anchor.2 with
    | none => st
    | some targetContainer =>
      let index := getBindingIndexForPosition st e targetContainer anchor.1
      let st1 := deleteBindingsAndReflow st (bindingsTo st eid)
      let b : Binding :=
        { id := st1.nextBindingId, fromId := targetContainer.id, toId := eid,
          index := index, placeholder := false }
      onAfterCreate (createBindingRecord st1 b) b

/-- The resolved drop target of an element at its current position, the
computation both drag handlers repeat. -/
def resolveTargetOf (st : EditorState) (eid : ℕ) : Option Shape :=
  match getShape st eid with
  | none => none
  | some e => getTargetContainer st e (elementAnchor e).1 (elementAnchor e).2

/-- The given shape id currently resolves to an element-type shape. -/
def IsElementShape (st : EditorState) (eid : ℕ) : Prop :=
  ∃ e, getShape st eid = some e ∧ e.stype = "element"

instance (st : EditorState) (eid : ℕ) : Decidable (IsElementShape st eid) := by
  unfold IsElementShape
  exact match h : getShape st eid with
  | none => .isFalse (by simp [h])
  | some e => decidable_of_iff (e.stype = "element") (by simp [h])

/-- The reactions to an externally driven change of a shape: the framework
fires onAfterChangeFromShape for every binding whose from shape it is.  No
handler is registered for the bindings whose to shape it is. -/
def shapeChangedReactions (st : EditorState) (sid : ℕ) : EditorState :=
  (bindingsFrom st sid).foldl onAfterChangeFromShape st

/-- One interaction step of the core: one drag lifecycle callback of the
element util (including every binding-lifecycle reaction it causes), one
reflow fired by a binding trigger, or the reactions to a container being
moved from outside. -/
inductive DragStep : EditorState → EditorState → Prop
  | start (st : EditorState) (eid : ℕ) (h : IsElementShape st eid) :
      DragStep st (onTranslateStart st eid)
  | move (st : EditorState) (eid : ℕ) (px py : ℚ) (h : IsElementShape st eid) :
      DragStep st (translateMove st eid px py)
  | finish (st : EditorState) (eid : ℕ) (h : IsElementShape st eid) :
      DragStep st (onTranslateEndBody st eid)
  | reflow (st : EditorState) (b : Binding) (h : b ∈ st.bindings) :
      DragStep st (updateElementsForContainer st b).1
  | shapeChanged (st : EditorState) (sid : ℕ) :
      DragStep st (shapeChangedReactions st sid)

/-- Reachability through interaction steps. -/
inductive Reachable : EditorState → EditorState → Prop
  | refl (st : EditorState) : Reachable st st
  | tail {st₀ st₁ st₂ : EditorState} : Reachable st₀ st₁ → DragStep st₁ st₂ → Reachable st₀ st₂

/-- The padded single-row width formula of the reflow engine for n members. -/
def rowWidth (n : ℕ) : ℚ := 24 + ((n : ℚ) * 100 + ((n : ℚ) - 1) * 24) + 24

/-- The container size maintained by the reflow engine: a container with
members has exactly the formula size; a container without members is no
larger than the one-member size, so that settling it can only grow it. -/
def ContainerSettled (st : EditorState) (s : Shape) : Prop :=
  (1 ≤ (bindingsFrom st s.id).length →
    s.width = rowWidth (bindingsFrom st s.id).length ∧ s.height = 148) ∧
  ((bindingsFrom st s.id).length = 0 → s.width ≤ 148 ∧ s.height ≤ 148)

/-- The record-level part of the engine's well-formedness invariant.
* shape and binding ids are unique and the fresh-id counter is fresh;
* every binding goes from a container-type shape to an element-type shape;
* at most one binding per (container, element) pair;
* at most one committed (non-placeholder) binding per element;
* sibling bindings of one container never share an index key. -/
structure EngineInvCore (st : EditorState) : Prop where
  shapesNodup : (st.shapes.map Shape.id).Nodup
  bindingsNodup : (st.bindings.map Binding.id).Nodup
  idsFresh : ∀ b ∈ st.bindings, b.id < st.nextBindingId
  fromContainer : ∀ b ∈ st.bindings, ∃ s, getShape st b.fromId = some s ∧ s.stype = "container"
  toElement : ∀ b ∈ st.bindings, ∃ s, getShape st b.toId = some s ∧ s.stype = "element"
  pairUnique : st.bindings.Pairwise (fun a b => a.fromId = b.fromId → a.toId ≠ b.toId)
  oneActive : st.bindings.Pairwise
    (fun a b => a.toId = b.toId → a.placeholder = true ∨ b.placeholder = true)
  keysUnique : st.bindings.Pairwise (fun a b => a.fromId = b.fromId → a.index ≠ b.index)

/-- The full invariant: the record-level part plus settled container sizes. -/
structure EngineInv (st : EditorState) extends EngineInvCore st : Prop where
  settled : ∀ s ∈ st.shapes, s.stype = "container" → ContainerSettled st s

/-! ### Elementary lemmas about the store helpers -/

theorem insertByIndex_perm (b : Binding) (l : List Binding) :
    List.Perm (insertByIndex b l) (b :: l) := by
  induction l with
  | nil => simp [insertByIndex]
  | cons a rest ih =>
    by_cases h : b.index ≤ a.index
    · simp [insertByIndex, h]
    · simp only [insertByIndex, if_neg h]
      exact ((ih.cons a).trans (List.Perm.swap b a rest))

theorem sortBindings_perm (l : List Binding) : List.Perm (sortBindings l) l := by
  induction l with
  | nil => simp [sortBindings]
  | cons a rest ih =>
    exact (insertByIndex_perm a (sortBindings rest)).trans (ih.cons a)

theorem sortBindings_length (l : List Binding) : (sortBindings l).length = l.length :=
  (sortBindings_perm l).length_eq

theorem insertByIndex_sorted {l : List Binding} (b : Binding)
    (h : l.Pairwise (fun a c => a.index ≤ c.index)) :
    (insertByIndex b l).Pairwise (fun a c => a.index ≤ c.index) := by
  induction l with
  | nil => simp [insertByIndex]
  | cons a rest ih =>
    rcases List.pairwise_cons.mp h with ⟨ha, hrest⟩
    by_cases hba : b.index ≤ a.index
    · simp only [insertByIndex, if_pos hba]
      refine List.pairwise_cons.mpr ⟨?_, h⟩
      intro c hc
      rcases List.mem_cons.mp hc with hc | hc
      · subst hc; exact hba
      · exact le_trans hba (ha c hc)
    · simp only [insertByIndex, if_neg hba]
      refine List.pairwise_cons.mpr ⟨?_, ih hrest⟩
      intro c hc
      rcases List.mem_cons.mp ((insertByIndex_perm b rest).mem_iff.mp hc) with hc' | hc'
      · subst hc'; exact le_of_not_le hba
      · exact ha c hc'

theorem sortBindings_sorted (l : List Binding) :
    (sortBindings l).Pairwise (fun a c => a.index ≤ c.index) := by
  induction l with
  | nil => simp [sortBindings]
  | cons a rest ih => exact insertByIndex_sorted a ih

/-- A pairwise symmetric relation transfers across sorting. -/
theorem sortBindings_pairwise_of {R : Binding → Binding → Prop}
    (hsymm : ∀ a b, R a b → R b a) {l : List Binding} (h : l.Pairwise R) :
    (sortBindings l).Pairwise R :=
  ((sortBindings_perm l).pairwise_iff (fun {a b} hab => hsymm a b hab)).mpr h

/-! ### Claim C10: the binding-capability predicates -/

/-- Claim C10: both canBind predicates accept a triple exactly when it is
(container, element, layout), and reject every other triple. -/
theorem canBind_characterisation (f t b : String) :
    ((ContainerShapeUtil_canBind f t b ↔ f = "container" ∧ t = "element" ∧ b = "layout") ∧
      (ElementShapeUtil_canBind f t b ↔ f = "container" ∧ t = "element" ∧ b = "layout")) ∧
      ((f ≠ "container" ∨ t ≠ "element" ∨ b ≠ "layout") →
        ¬ ContainerShapeUtil_canBind f t b ∧ ¬ ElementShapeUtil_canBind f t b) := by
  refine ⟨⟨Iff.rfl, Iff.rfl⟩, ?_⟩
  intro h
  unfold ContainerShapeUtil_canBind ElementShapeUtil_canBind
  tauto

/-- Witness for C10 at a concrete forbidden triple: a container-to-container
layout binding is rejected by both predicates. -/
theorem canBind_characterisation_witness :
    ¬ ContainerShapeUtil_canBind "container" "container" "layout" ∧
      ¬ ElementShapeUtil_canBind "container" "container" "layout" :=
  (canBind_characterisation "container" "container" "layout").2 (by simp)

/-! ### Claim C9: the registered lifecycle hooks -/

/-- Counterexample to claim C9 as stated: no lifecycle handler is registered
for changes of the bound element (the to shape of a layout binding), so the
related-shape-changed case for the bound element is not covered. -/
theorem no_hook_for_bound_element_change :
    layoutBindingUtilHooks.afterChangeToShape = none := rfl

/-- Claim C9 as amended: the registered lifecycle hooks are after-create,
after-update, after-delete, and the related-shape-changed case for the bound
container (the from shape of the binding), each invoking reflow for the
container of the carried binding; no handler is registered for changes of
the bound element itself. -/
theorem registered_hooks_invoke_reflow :
    layoutBindingUtilHooks.afterCreate = some onAfterCreate ∧
      layoutBindingUtilHooks.afterChange = some onAfterChange ∧
      layoutBindingUtilHooks.afterChangeFromShape = some onAfterChangeFromShape ∧
      layoutBindingUtilHooks.afterDelete = some onAfterDelete ∧
      layoutBindingUtilHooks.afterChangeToShape = none ∧
      (∀ st b, onAfterCreate st b = (updateElementsForContainer st b).1) ∧
      (∀ st b, onAfterChange st b = (updateElementsForContainer st b).1) ∧
      (∀ st b, onAfterChangeFromShape st b = (updateElementsForContainer st b).1) ∧
      (∀ st b, onAfterDelete st b = (updateElementsForContainer st b).1) := by
  refine ⟨rfl, rfl, rfl, rfl, rfl, ?_, ?_, ?_, ?_⟩ <;> intro st b <;> rfl

/-! ### Claim C2: the ordinal slot computation -/

/-- The sibling count of the claim: the container's layout relationships
excluding the dragged element's own. -/
def specSiblingCount (st : EditorState) (e c : Shape) : ℕ :=
  ((bindingsFrom st c.id).filter (fun b => decide (b.toId ≠ e.id))).length

/-- The candidate slot of the claim: round((anchorX - containerX - 24) / 124)
clamped into [0, n + 1]. -/
def specSlotIndex (st : EditorState) (e c : Shape) (anchorX : ℚ) : ℤ :=
  jsClamp (jsRound ((anchorX - c.x - 24) / 124)) 0 (specSiblingCount st e c + 1)

/-- The slot key of the claim, written after its words: neighbours at
positions slot - 1 and slot of the unfiltered key-ascending relationship
list; a neighbour that is the element's own relationship has its key reused,
otherwise a key between the neighbour keys is allocated. -/
def specSlotKey (st : EditorState) (e c : Shape) (anchorX : ℚ) : ℚ :=
  let ordered := sortBindings (bindingsFrom st c.id)
  let slot := specSlotIndex st e c anchorX
  let below := listGet? ordered (slot - 1)
  let above := listGet? ordered slot
  match below, above with
  | some bb, ab =>
    if bb.toId = e.id then bb.index
    else
      match ab with
      | some aa =>
        if aa.toId = e.id then aa.index else getIndexBetween (some bb.index) (some aa.index)
      | none => getIndexBetween (some bb.index) none
  | none, some aa =>
    if aa.toId = e.id then aa.index else getIndexBetween none (some aa.index)
  | none, none => getIndexBetween none none

/-- Claim C2: the slot computation of the source equals the claim's
description, and the allocated key of the fresh case is strictly between its
neighbour bounds, an absent bound being an open end. -/
theorem getBindingIndexForPosition_spec (st : EditorState) (e c : Shape) (anchorX : ℚ) :
    getBindingIndexForPosition st e c anchorX = specSlotKey st e c anchorX ∧
      (∀ lo hi : ℚ, lo < hi →
        lo < getIndexBetween (some lo) (some hi) ∧ getIndexBetween (some lo) (some hi) < hi) ∧
      (∀ hi : ℚ, getIndexBetween none (some hi) < hi) ∧
      (∀ lo : ℚ, lo < getIndexBetween (some lo) none) := by
  refine ⟨?_, ?_, ?_, ?_⟩
  · have hlen : ((sortBindings (bindingsFrom st c.id)).filter
        (fun b => decide (b.toId ≠ e.id))).length = specSiblingCount st e c :=
      (((sortBindings_perm (bindingsFrom st c.id))).filter _).length_eq
    simp only [getBindingIndexForPosition, specSlotKey, specSlotIndex, hlen, CONTAINER_PADDING]
    norm_num
  · intro lo hi h
    constructor <;> [skip; skip] <;> simp only [getIndexBetween] <;> linarith
  · intro hi; simp only [getIndexBetween]; linarith
  · intro lo; simp only [getIndexBetween]; linarith

/-- Witness for C2 on a concrete store: one container with one committed
member, the dragged element hovering right of it. -/
theorem getBindingIndexForPosition_spec_witness :
    ((0 : ℚ) < 1) ∧
      ((0 : ℚ) < getIndexBetween (some 0) (some 1) ∧ getIndexBetween (some 0) (some 1) < 1) := by
  refine ⟨by norm_num, (getBindingIndexForPosition_spec
    ⟨[], [], 0⟩ ⟨2, "element", 0, 0, 100, 100⟩ ⟨1, "container", 0, 0, 148, 148⟩ 0).2.1 0 1
    (by norm_num)⟩

/-! ### Lookup and update lemmas -/

theorem findShape_id : ∀ {l : List Shape} {i : ℕ} {s : Shape}, findShape l i = some s → s.id = i := by
  intro l
  induction l with
  | nil => intro i s h; simp [findShape] at h
  | cons a rest ih =>
    intro i s h
    by_cases ha : a.id = i
    · simp only [findShape, if_pos ha] at h
      cases h; exact ha
    · simp only [findShape, if_neg ha] at h
      exact ih h

theorem findShape_map (f : Shape → Shape) (hf : ∀ s, (f s).id = s.id) :
    ∀ (l : List Shape) (i : ℕ), findShape (List.map f l) i = (findShape l i).map f := by
  intro l
  induction l with
  | nil => intro i; simp [findShape]
  | cons a rest ih =>
    intro i
    by_cases ha : a.id = i
    · simp [findShape, hf a, ha]
    · simp [findShape, hf a, ha, ih i]

theorem getShape_updateShapePos (st : EditorState) (i : ℕ) (px py : ℚ) (j : ℕ) :
    getShape (updateShapePos st i px py) j =
      (getShape st j).map (fun s => if s.id = i then { s with x := px, y := py } else s) := by
  unfold getShape updateShapePos
  exact findShape_map _ (fun s => by by_cases h : s.id = i <;> simp [h]) st.shapes j

theorem getShape_updateShapeSize (st : EditorState) (i : ℕ) (w h : ℚ) (j : ℕ) :
    getShape (updateShapeSize st i w h) j =
      (getShape st j).map (fun s => if s.id = i then { s with width := w, height := h } else s) := by
  unfold getShape updateShapeSize
  exact findShape_map _ (fun s => by by_cases h : s.id = i <;> simp [h]) st.shapes j

theorem getShape_updateShapePos_ne (st : EditorState) {i j : ℕ} (px py : ℚ) (h : j ≠ i) :
    getShape (updateShapePos st i px py) j = getShape st j := by
  rw [getShape_updateShapePos]
  cases hs : getShape st j with
  | none => rfl
  | some s =>
    have : s.id = j := findShape_id hs
    simp [this, h]

theorem getShape_updateShapeSize_ne (st : EditorState) {i j : ℕ} (w hh : ℚ) (h : j ≠ i) :
    getShape (updateShapeSize st i w hh) j = getShape st j := by
  rw [getShape_updateShapeSize]
  cases hs : getShape st j with
  | none => rfl
  | some s =>
    have : s.id = j := findShape_id hs
    simp [this, h]

theorem getShape_updateShapePos_self {st : EditorState} {i : ℕ} {s : Shape} (px py : ℚ)
    (h : getShape st i = some s) :
    getShape (updateShapePos st i px py) i = some { s with x := px, y := py } := by
  rw [getShape_updateShapePos, h]
  have : s.id = i := findShape_id h
  simp [this]

theorem getShape_updateShapeSize_self {st : EditorState} {i : ℕ} {s : Shape} (w hh : ℚ)
    (h : getShape st i = some s) :
    getShape (updateShapeSize st i w hh) i = some { s with width := w, height := hh } := by
  rw [getShape_updateShapeSize, h]
  have : s.id = i := findShape_id h
  simp [this]

/-! ### Frame lemmas about the reflow loop -/

theorem reflowLoop_bindings (cid t : ℕ) (ph : Bool) :
    ∀ (L : List Binding) (i : ℕ) (st : EditorState) (w : Bool),
      (reflowLoop cid t ph L i st w).1.bindings = st.bindings ∧
        (reflowLoop cid t ph L i st w).1.nextBindingId = st.nextBindingId := by
  intro L
  induction L with
  | nil => intro i st w; simp [reflowLoop]
  | cons b rest ih =>
    intro i st w
    unfold reflowLoop
    by_cases hskip : t = b.toId ∧ ph = true
    · simp only [if_pos hskip]; exact ih _ _ _
    · simp only [if_neg hskip]
      cases hs : getShape st b.toId with
      | none => exact ih _ _ _
      | some s =>
        cases hc : getShape st cid with
        | none => exact ih _ _ _
        | some c =>
          by_cases hw : s.x ≠ c.x + (CONTAINER_PADDING + (i : ℚ) * (100 + CONTAINER_PADDING)) ∨
              s.y ≠ c.y + CONTAINER_PADDING
          · simp only [if_pos hw]
            exact ih _ _ _
          · simp only [if_neg hw]
            exact ih _ _ _

theorem reflowLoop_frame (cid t : ℕ) (ph : Bool) :
    ∀ (L : List Binding) (i : ℕ) (st : EditorState) (w : Bool) (j : ℕ),
      j ∉ L.map Binding.toId →
      getShape (reflowLoop cid t ph L i st w).1 j = getShape st j := by
  intro L
  induction L with
  | nil => intro i st w j _; simp [reflowLoop]
  | cons b rest ih =>
    intro i st w j hj
    simp only [List.map_cons, List.mem_cons, not_or] at hj
    obtain ⟨hjb, hjrest⟩ := hj
    unfold reflowLoop
    by_cases hskip : t = b.toId ∧ ph = true
    · simp only [if_pos hskip]; exact ih _ _ _ j hjrest
    · simp only [if_neg hskip]
      cases hs : getShape st b.toId with
      | none => exact ih _ _ _ j hjrest
      | some s =>
        cases hc : getShape st cid with
        | none => exact ih _ _ _ j hjrest
        | some c =>
          by_cases hw : s.x ≠ c.x + (CONTAINER_PADDING + (i : ℚ) * (100 + CONTAINER_PADDING)) ∨
              s.y ≠ c.y + CONTAINER_PADDING
          · simp only [if_pos hw]
            rw [ih _ _ _ j hjrest]
            exact getShape_updateShapePos_ne _ _ _ hjb
          · simp only [if_neg hw]
            exact ih _ _ _ j hjrest

/-- The id, type tag and size props of every shape survive the reflow loop. -/
theorem reflowLoop_sig (cid t : ℕ) (ph : Bool) :
    ∀ (L : List Binding) (i : ℕ) (st : EditorState) (w : Bool) (j : ℕ),
      (getShape (reflowLoop cid t ph L i st w).1 j).map
          (fun s => (s.id, s.stype, s.width, s.height)) =
        (getShape st j).map (fun s => (s.id, s.stype, s.width, s.height)) := by
  intro L
  induction L with
  | nil => intro i st w j; simp [reflowLoop]
  | cons b rest ih =>
    intro i st w j
    unfold reflowLoop
    by_cases hskip : t = b.toId ∧ ph = true
    · simp only [if_pos hskip]; exact ih _ _ _ j
    · simp only [if_neg hskip]
      cases hs : getShape st b.toId with
      | none => exact ih _ _ _ j
      | some s =>
        cases hc : getShape st cid with
        | none => exact ih _ _ _ j
        | some c =>
          by_cases hw : s.x ≠ c.x + (CONTAINER_PADDING + (i : ℚ) * (100 + CONTAINER_PADDING)) ∨
              s.y ≠ c.y + CONTAINER_PADDING
          · simp only [if_pos hw]
            rw [ih _ _ _ j, getShape_updateShapePos]
            cases hj : getShape st j with
            | none => rfl
            | some u => by_cases hu : u.id = b.toId <;> simp [hu]
          · simp only [if_neg hw]
            exact ih _ _ _ j


/-- The one-step equation of the reflow loop on a non-empty member list. -/
theorem reflowLoop_cons_eq (cid t : ℕ) (ph : Bool) (b : Binding) (rest : List Binding)
    (i : ℕ) (st : EditorState) (w : Bool) :
    reflowLoop cid t ph (b :: rest) i st w =
      if t = b.toId ∧ ph = true then reflowLoop cid t ph rest (i + 1) st w
      else
        match getShape st b.toId, getShape st cid with
        | some s, some c =>
          let px := c.x + (CONTAINER_PADDING + (i : ℚ) * (100 + CONTAINER_PADDING))
          let py := c.y + CONTAINER_PADDING
          if s.x ≠ px ∨ s.y ≠ py then
            reflowLoop cid t ph rest (i + 1) (updateShapePos st b.toId px py) true
          else reflowLoop cid t ph rest (i + 1) st w
        | _, _ => reflowLoop cid t ph rest (i + 1) st w := rfl

/-- One unfolding step of the reflow loop: the tail call starts from a state
that differs at most at the head member's shape. -/
theorem reflowLoop_cons (cid t : ℕ) (ph : Bool) (b : Binding) (rest : List Binding)
    (i : ℕ) (st : EditorState) (w : Bool) :
    ∃ st' w', reflowLoop cid t ph (b :: rest) i st w = reflowLoop cid t ph rest (i + 1) st' w' ∧
      st'.bindings = st.bindings ∧ st'.nextBindingId = st.nextBindingId ∧
      (∀ j, j ≠ b.toId → getShape st' j = getShape st j) := by
  rw [reflowLoop_cons_eq]
  by_cases hskip : t = b.toId ∧ ph = true
  · rw [if_pos hskip]
    exact ⟨st, w, rfl, rfl, rfl, fun j _ => rfl⟩
  · rw [if_neg hskip]
    cases hs : getShape st b.toId with
    | none => exact ⟨st, w, rfl, rfl, rfl, fun j _ => rfl⟩
    | some s =>
      cases hc : getShape st cid with
      | none => exact ⟨st, w, rfl, rfl, rfl, fun j _ => rfl⟩
      | some c =>
        dsimp only
        by_cases hw : s.x ≠ c.x + (CONTAINER_PADDING + (i : ℚ) * (100 + CONTAINER_PADDING)) ∨
            s.y ≠ c.y + CONTAINER_PADDING
        · rw [if_pos hw]
          refine ⟨_, true, rfl, rfl, rfl, fun j hj => getShape_updateShapePos_ne st _ _ hj⟩
        · rw [if_neg hw]
          exact ⟨st, w, rfl, rfl, rfl, fun j _ => rfl⟩

/-- The head member of the reflow loop: skipped when it is the placeholder
trigger, otherwise moved to the slot of position i when its shape and the
container resolve. -/
theorem reflowLoop_head (cid t : ℕ) (ph : Bool) (b : Binding) (rest : List Binding)
    (i : ℕ) (st : EditorState) (w : Bool) (hbrest : b.toId ∉ rest.map Binding.toId) :
    ((t = b.toId ∧ ph = true) →
      getShape (reflowLoop cid t ph (b :: rest) i st w).1 b.toId = getShape st b.toId) ∧
    (¬ (t = b.toId ∧ ph = true) →
      ∀ c s, getShape st cid = some c → getShape st b.toId = some s →
        getShape (reflowLoop cid t ph (b :: rest) i st w).1 b.toId =
          some { s with
            x := c.x + (CONTAINER_PADDING + (i : ℚ) * (100 + CONTAINER_PADDING)),
            y := c.y + CONTAINER_PADDING }) := by
  constructor
  · intro hskip
    rw [reflowLoop_cons_eq, if_pos hskip]
    exact reflowLoop_frame cid t ph rest (i + 1) st w b.toId hbrest
  · intro hns c s hc hs
    rw [reflowLoop_cons_eq, if_neg hns, hs, hc]
    dsimp only
    by_cases hw : s.x ≠ c.x + (CONTAINER_PADDING + (i : ℚ) * (100 + CONTAINER_PADDING)) ∨
        s.y ≠ c.y + CONTAINER_PADDING
    · rw [if_pos hw, reflowLoop_frame cid t ph rest (i + 1) _ true b.toId hbrest]
      exact getShape_updateShapePos_self _ _ hs
    · rw [if_neg hw, reflowLoop_frame cid t ph rest (i + 1) st w b.toId hbrest, hs]
      push_neg at hw
      obtain ⟨hwx, hwy⟩ := hw
      cases s with
      | mk sid sst sx sy sw sh =>
        simp only at hwx hwy
        simp [hwx, hwy]

/-- Position characterisation of the reflow loop: with distinct member ids
that do not include the container, a skipped member keeps its shape record
and every other member whose shape and container resolve is moved to its
slot. -/
theorem reflowLoop_pos (cid t : ℕ) (ph : Bool) :
    ∀ (L : List Binding) (i : ℕ) (st : EditorState) (w : Bool),
      (L.map Binding.toId).Nodup → cid ∉ L.map Binding.toId →
      ∀ (k : ℕ) (hk : k < L.length),
        (¬ (t = (L.get ⟨k, hk⟩).toId ∧ ph = true) →
          ∀ c s, getShape st cid = some c → getShape st (L.get ⟨k, hk⟩).toId = some s →
            getShape (reflowLoop cid t ph L i st w).1 (L.get ⟨k, hk⟩).toId =
              some { s with
                x := c.x + (CONTAINER_PADDING + ((i + k : ℕ) : ℚ) * (100 + CONTAINER_PADDING)),
                y := c.y + CONTAINER_PADDING }) ∧
        ((t = (L.get ⟨k, hk⟩).toId ∧ ph = true) →
          getShape (reflowLoop cid t ph L i st w).1 (L.get ⟨k, hk⟩).toId =
            getShape st (L.get ⟨k, hk⟩).toId) := by
  intro L
  induction L with
  | nil => intro i st w _ _ k hk; exact absurd hk (by simp)
  | cons b rest ih =>
    intro i st w hnd hcid k hk
    simp only [List.map_cons, List.nodup_cons] at hnd
    obtain ⟨hbrest, hndrest⟩ := hnd
    simp only [List.map_cons, List.mem_cons, not_or] at hcid
    obtain ⟨hcidb, hcidrest⟩ := hcid
    cases k with
    | zero =>
      have hhead := reflowLoop_head cid t ph b rest i st w hbrest
      refine ⟨?_, ?_⟩
      · intro hns c s hc hs
        have h := hhead.2 hns c s hc hs
        simpa using h
      · intro hskip
        exact hhead.1 hskip
    | succ k =>
      have hk' : k < rest.length := by simpa using Nat.lt_of_succ_lt_succ hk
      have hne : (rest.get ⟨k, hk'⟩).toId ≠ b.toId := by
        intro h
        exact hbrest (h ▸ List.mem_map_of_mem _ (rest.get_mem _ _))
      obtain ⟨st', w', heq, _, _, hsh⟩ := reflowLoop_cons cid t ph b rest i st w
      have ihk := ih (i + 1) st' w' hndrest hcidrest k hk'
      have hcidne : cid ≠ b.toId := hcidb
      refine ⟨?_, ?_⟩
      · intro hns c s hc hs
        have hc' : getShape st' cid = some c := by rw [hsh cid hcidne]; exact hc
        have hs' : getShape st' (rest.get ⟨k, hk'⟩).toId = some s := by
          rw [hsh _ hne]
          exact hs
        have h := ihk.1 hns c s hc' hs'
        rw [show i + 1 + k = i + (k + 1) by omega] at h
        show getShape (reflowLoop cid t ph (b :: rest) i st w).1 (rest.get ⟨k, hk'⟩).toId = _
        rw [heq]
        exact h
      · intro hskip
        have h := ihk.2 hskip
        show getShape (reflowLoop cid t ph (b :: rest) i st w).1 (rest.get ⟨k, hk'⟩).toId =
          getShape st (rest.get ⟨k, hk'⟩).toId
        rw [heq, h, hsh _ hne]

/-! ### Lemmas about one reflow invocation -/

theorem uefc_nocontainer {st : EditorState} {b : Binding}
    (hc : getShape st b.fromId = none) : updateElementsForContainer st b = (st, false) := by
  unfold updateElementsForContainer
  rw [hc]

theorem uefc_nobindings {st : EditorState} {b : Binding} {c : Shape}
    (hc : getShape st b.fromId = some c) (hemp : bindingsFrom st b.fromId = []) :
    updateElementsForContainer st b = (st, false) := by
  unfold updateElementsForContainer
  rw [hc]
  dsimp only
  have hid : c.id = b.fromId := findShape_id hc
  rw [hid, hemp]
  simp [sortBindings]

theorem uefc_bindings (st : EditorState) (b : Binding) :
    (updateElementsForContainer st b).1.bindings = st.bindings ∧
      (updateElementsForContainer st b).1.nextBindingId = st.nextBindingId := by
  unfold updateElementsForContainer
  cases hc : getShape st b.fromId with
  | none => exact ⟨rfl, rfl⟩
  | some container =>
    dsimp only
    by_cases hlen : (sortBindings (bindingsFrom st container.id)).length = 0
    · rw [if_pos hlen]
      exact ⟨rfl, rfl⟩
    · rw [if_neg hlen]
      have hrl := reflowLoop_bindings container.id b.toId b.placeholder
        (sortBindings (bindingsFrom st container.id)) 0 st false
      by_cases hw : CONTAINER_PADDING + (((sortBindings (bindingsFrom st container.id)).length : ℚ) *
            100 + (((sortBindings (bindingsFrom st container.id)).length : ℚ) - 1) *
            CONTAINER_PADDING) + CONTAINER_PADDING ≠ container.width ∨
          CONTAINER_PADDING + 100 + CONTAINER_PADDING ≠ container.height
      · rw [if_pos hw]
        exact ⟨hrl.1, hrl.2⟩
      · rw [if_neg hw]
        exact ⟨hrl.1, hrl.2⟩

/-- Shapes that are neither a member nor the container survive a reflow
invocation unchanged. -/
theorem uefc_frame_other (st : EditorState) (b : Binding) (j : ℕ)
    (hj : j ∉ (sortBindings (bindingsFrom st b.fromId)).map Binding.toId)
    (hjc : j ≠ b.fromId) :
    getShape (updateElementsForContainer st b).1 j = getShape st j := by
  unfold updateElementsForContainer
  cases hc : getShape st b.fromId with
  | none => rfl
  | some container =>
    dsimp only
    have hid : container.id = b.fromId := findShape_id hc
    rw [hid]
    by_cases hlen : (sortBindings (bindingsFrom st b.fromId)).length = 0
    · rw [if_pos hlen]
    · rw [if_neg hlen]
      have hframe := reflowLoop_frame b.fromId b.toId b.placeholder
        (sortBindings (bindingsFrom st b.fromId)) 0 st false j hj
      by_cases hw : CONTAINER_PADDING + (((sortBindings (bindingsFrom st b.fromId)).length : ℚ) *
            100 + (((sortBindings (bindingsFrom st b.fromId)).length : ℚ) - 1) *
            CONTAINER_PADDING) + CONTAINER_PADDING ≠ container.width ∨
          CONTAINER_PADDING + 100 + CONTAINER_PADDING ≠ container.height
      · rw [if_pos hw]
        rw [getShape_updateShapeSize_ne _ _ _ hjc]
        exact hframe
      · rw [if_neg hw]
        exact hframe

/-- The id, type tag and size props of every shape other than the container
survive a reflow invocation. -/
theorem uefc_sig_other (st : EditorState) (b : Binding) (j : ℕ) (hjc : j ≠ b.fromId) :
    (getShape (updateElementsForContainer st b).1 j).map
        (fun s => (s.id, s.stype, s.width, s.height)) =
      (getShape st j).map (fun s => (s.id, s.stype, s.width, s.height)) := by
  unfold updateElementsForContainer
  cases hc : getShape st b.fromId with
  | none => rfl
  | some container =>
    dsimp only
    have hid : container.id = b.fromId := findShape_id hc
    rw [hid]
    by_cases hlen : (sortBindings (bindingsFrom st b.fromId)).length = 0
    · rw [if_pos hlen]
    · rw [if_neg hlen]
      have hsig := reflowLoop_sig b.fromId b.toId b.placeholder
        (sortBindings (bindingsFrom st b.fromId)) 0 st false j
      by_cases hw : CONTAINER_PADDING + (((sortBindings (bindingsFrom st b.fromId)).length : ℚ) *
            100 + (((sortBindings (bindingsFrom st b.fromId)).length : ℚ) - 1) *
            CONTAINER_PADDING) + CONTAINER_PADDING ≠ container.width ∨
          CONTAINER_PADDING + 100 + CONTAINER_PADDING ≠ container.height
      · rw [if_pos hw]
        rw [getShape_updateShapeSize_ne _ _ _ hjc]
        exact hsig
      · rw [if_neg hw]
        exact hsig

/-- After a reflow invocation on a container with members that does not
contain itself as a member, the container record carries exactly the padded
row sizes and is otherwise unchanged. -/
theorem uefc_container (st : EditorState) (b : Binding) (c : Shape)
    (hc : getShape st b.fromId = some c)
    (hne : bindingsFrom st b.fromId ≠ [])
    (hcid : b.fromId ∉ (sortBindings (bindingsFrom st b.fromId)).map Binding.toId) :
    getShape (updateElementsForContainer st b).1 b.fromId =
      some { c with width := rowWidth (bindingsFrom st b.fromId).length, height := 148 } := by
  unfold updateElementsForContainer
  rw [hc]
  dsimp only
  have hid : c.id = b.fromId := findShape_id hc
  rw [hid]
  have hlen : (sortBindings (bindingsFrom st b.fromId)).length =
      (bindingsFrom st b.fromId).length := sortBindings_length _
  have hlpos : ¬ (sortBindings (bindingsFrom st b.fromId)).length = 0 := by
    rw [hlen]
    simpa [List.length_eq_zero] using hne
  rw [if_neg hlpos]
  have hframe := reflowLoop_frame b.fromId b.toId b.placeholder
    (sortBindings (bindingsFrom st b.fromId)) 0 st false b.fromId hcid
  have hwidth : CONTAINER_PADDING + (((sortBindings (bindingsFrom st b.fromId)).length : ℚ) *
      100 + (((sortBindings (bindingsFrom st b.fromId)).length : ℚ) - 1) *
      CONTAINER_PADDING) + CONTAINER_PADDING = rowWidth (bindingsFrom st b.fromId).length := by
    rw [hlen]
    unfold rowWidth CONTAINER_PADDING
    ring
  by_cases hw : CONTAINER_PADDING + (((sortBindings (bindingsFrom st b.fromId)).length : ℚ) *
        100 + (((sortBindings (bindingsFrom st b.fromId)).length : ℚ) - 1) *
        CONTAINER_PADDING) + CONTAINER_PADDING ≠ c.width ∨
      CONTAINER_PADDING + 100 + CONTAINER_PADDING ≠ c.height
  · rw [if_pos hw]
    have := getShape_updateShapeSize_self
      (CONTAINER_PADDING + (((sortBindings (bindingsFrom st b.fromId)).length : ℚ) *
        100 + (((sortBindings (bindingsFrom st b.fromId)).length : ℚ) - 1) *
        CONTAINER_PADDING) + CONTAINER_PADDING)
      (CONTAINER_PADDING + 100 + CONTAINER_PADDING)
      (show getShape (reflowLoop b.fromId b.toId b.placeholder
          (sortBindings (bindingsFrom st b.fromId)) 0 st false).1 b.fromId = some c from
        hframe.trans hc)
    rw [this, hwidth]
    norm_num [CONTAINER_PADDING, hid]
  · rw [if_neg hw]
    push_neg at hw
    obtain ⟨hw1, hw2⟩ := hw
    rw [hframe, hc]
    rw [hwidth] at hw1
    have hh : c.height = 148 := by
      rw [← hw2]; norm_num [CONTAINER_PADDING]
    cases c with
    | mk cid cst cx cy cw ch =>
      simp only at hw1 hh hid
      simp [← hw1, hh, hid]

/-- Member positions after one reflow invocation: with distinct member ids
not containing the container, a member is left untouched exactly when it
carries the trigger's element while the trigger is a placeholder; every
other member whose shape resolves is placed at its slot offset from the
container. -/
theorem uefc_member (st : EditorState) (b : Binding) (c : Shape)
    (hc : getShape st b.fromId = some c)
    (hnd : ((sortBindings (bindingsFrom st b.fromId)).map Binding.toId).Nodup)
    (hcid : b.fromId ∉ (sortBindings (bindingsFrom st b.fromId)).map Binding.toId)
    (k : ℕ) (hk : k < (sortBindings (bindingsFrom st b.fromId)).length) :
    (¬ (b.toId = ((sortBindings (bindingsFrom st b.fromId)).get ⟨k, hk⟩).toId ∧
        b.placeholder = true) →
      ∀ s, getShape st ((sortBindings (bindingsFrom st b.fromId)).get ⟨k, hk⟩).toId = some s →
        getShape (updateElementsForContainer st b).1
            ((sortBindings (bindingsFrom st b.fromId)).get ⟨k, hk⟩).toId =
          some { s with
            x := c.x + (CONTAINER_PADDING + (k : ℚ) * (100 + CONTAINER_PADDING)),
            y := c.y + CONTAINER_PADDING }) ∧
    ((b.toId = ((sortBindings (bindingsFrom st b.fromId)).get ⟨k, hk⟩).toId ∧
        b.placeholder = true) →
      getShape (updateElementsForContainer st b).1
          ((sortBindings (bindingsFrom st b.fromId)).get ⟨k, hk⟩).toId =
        getShape st ((sortBindings (bindingsFrom st b.fromId)).get ⟨k, hk⟩).toId) := by
  have hmemne : ((sortBindings (bindingsFrom st b.fromId)).get ⟨k, hk⟩).toId ≠ b.fromId := by
    intro h
    have hm := List.mem_map_of_mem Binding.toId
      (List.get_mem (sortBindings (bindingsFrom st b.fromId)) k hk)
    rw [h] at hm
    exact hcid hm
  have hpos := reflowLoop_pos b.fromId b.toId b.placeholder
    (sortBindings (bindingsFrom st b.fromId)) 0 st false hnd hcid k hk
  have hid : c.id = b.fromId := findShape_id hc
  unfold updateElementsForContainer
  rw [hc]
  dsimp only
  rw [hid]
  have hlpos : ¬ (sortBindings (bindingsFrom st b.fromId)).length = 0 := by omega
  rw [if_neg hlpos]
  by_cases hw : CONTAINER_PADDING + (((sortBindings (bindingsFrom st b.fromId)).length : ℚ) *
        100 + (((sortBindings (bindingsFrom st b.fromId)).length : ℚ) - 1) *
        CONTAINER_PADDING) + CONTAINER_PADDING ≠ c.width ∨
      CONTAINER_PADDING + 100 + CONTAINER_PADDING ≠ c.height
  · rw [if_pos hw]
    constructor
    · intro hns s hs
      rw [getShape_updateShapeSize_ne _ _ _ hmemne]
      have h := hpos.1 hns c s hc hs
      simpa using h
    · intro hsk
      rw [getShape_updateShapeSize_ne _ _ _ hmemne]
      exact hpos.2 hsk
  · rw [if_neg hw]
    constructor
    · intro hns s hs
      have h := hpos.1 hns c s hc hs
      simpa using h
    · intro hsk
      exact hpos.2 hsk

/-! ### Claim C1: the geometry invariant of a committed reflow -/

/-- Claim C1: after a reflow triggered by a committed relationship, a
container with n members is exactly 24 + n*100 + (n-1)*24 + 24 wide and
24+100+24 high, and the member at sorted position k sits at offset
(24 + k*124, 24) in the container's local frame. -/
theorem reflow_geometry_invariant (st : EditorState) (b : Binding) (c : Shape)
    (hc : getShape st b.fromId = some c)
    (hb : b.placeholder = false)
    (hn : 1 ≤ (bindingsFrom st b.fromId).length)
    (hnd : ((sortBindings (bindingsFrom st b.fromId)).map Binding.toId).Nodup)
    (hcid : b.fromId ∉ (sortBindings (bindingsFrom st b.fromId)).map Binding.toId) :
    ∃ c', getShape (updateElementsForContainer st b).1 b.fromId = some c' ∧
      c'.width = 24 + ((bindingsFrom st b.fromId).length : ℚ) * 100 +
        (((bindingsFrom st b.fromId).length : ℚ) - 1) * 24 + 24 ∧
      c'.height = 24 + 100 + 24 ∧
      ∀ (k : ℕ) (hk : k < (sortBindings (bindingsFrom st b.fromId)).length),
        ∀ s, getShape st ((sortBindings (bindingsFrom st b.fromId)).get ⟨k, hk⟩).toId = some s →
          ∃ s', getShape (updateElementsForContainer st b).1
              ((sortBindings (bindingsFrom st b.fromId)).get ⟨k, hk⟩).toId = some s' ∧
            s'.x = c'.x + (24 + (k : ℚ) * 124) ∧ s'.y = c'.y + 24 := by
  have hne : bindingsFrom st b.fromId ≠ [] := by
    intro h
    rw [h] at hn
    simp at hn
  refine ⟨{ c with width := rowWidth (bindingsFrom st b.fromId).length, height := 148 },
    uefc_container st b c hc hne hcid, ?_, by norm_num, ?_⟩
  · show rowWidth (bindingsFrom st b.fromId).length = _
    unfold rowWidth
    ring
  · intro k hk s hs
    have hns : ¬ (b.toId = ((sortBindings (bindingsFrom st b.fromId)).get ⟨k, hk⟩).toId ∧
        b.placeholder = true) := by
      rintro ⟨-, hph⟩
      rw [hb] at hph
      exact Bool.false_ne_true hph
    have h := (uefc_member st b c hc hnd hcid k hk).1 hns s hs
    refine ⟨_, h, ?_, ?_⟩
    · show c.x + (CONTAINER_PADDING + (k : ℚ) * (100 + CONTAINER_PADDING)) =
        c.x + (24 + (k : ℚ) * 124)
      norm_num [CONTAINER_PADDING]
    · show c.y + CONTAINER_PADDING = c.y + 24
      norm_num [CONTAINER_PADDING]

/-- Witness for C1: a container with two committed members reflowed by the
second member's relationship. -/
theorem reflow_geometry_invariant_witness :
    (getShape
        ⟨[⟨1, "container", 0, 0, 272, 148⟩, ⟨2, "element", 24, 24, 100, 100⟩,
          ⟨3, "element", 500, 500, 100, 100⟩],
          [⟨10, 1, 2, 1, false⟩, ⟨11, 1, 3, 2, false⟩], 12⟩
        (Binding.fromId ⟨11, 1, 3, 2, false⟩) = some ⟨1, "container", 0, 0, 272, 148⟩) ∧
      (Binding.placeholder ⟨11, 1, 3, 2, false⟩ = false) ∧
      (1 ≤ (bindingsFrom
        ⟨[⟨1, "container", 0, 0, 272, 148⟩, ⟨2, "element", 24, 24, 100, 100⟩,
          ⟨3, "element", 500, 500, 100, 100⟩],
          [⟨10, 1, 2, 1, false⟩, ⟨11, 1, 3, 2, false⟩], 12⟩
        (Binding.fromId ⟨11, 1, 3, 2, false⟩)).length) ∧
      (∃ c', getShape (updateElementsForContainer
          ⟨[⟨1, "container", 0, 0, 272, 148⟩, ⟨2, "element", 24, 24, 100, 100⟩,
            ⟨3, "element", 500, 500, 100, 100⟩],
            [⟨10, 1, 2, 1, false⟩, ⟨11, 1, 3, 2, false⟩], 12⟩ ⟨11, 1, 3, 2, false⟩).1
          (Binding.fromId ⟨11, 1, 3, 2, false⟩) = some c' ∧
        c'.width = 24 + ((bindingsFrom
          ⟨[⟨1, "container", 0, 0, 272, 148⟩, ⟨2, "element", 24, 24, 100, 100⟩,
            ⟨3, "element", 500, 500, 100, 100⟩],
            [⟨10, 1, 2, 1, false⟩, ⟨11, 1, 3, 2, false⟩], 12⟩
          (Binding.fromId ⟨11, 1, 3, 2, false⟩)).length : ℚ) * 100 +
          (((bindingsFrom
            ⟨[⟨1, "container", 0, 0, 272, 148⟩, ⟨2, "element", 24, 24, 100, 100⟩,
              ⟨3, "element", 500, 500, 100, 100⟩],
              [⟨10, 1, 2, 1, false⟩, ⟨11, 1, 3, 2, false⟩], 12⟩
            (Binding.fromId ⟨11, 1, 3, 2, false⟩)).length : ℚ) - 1) * 24 + 24 ∧
        c'.height = 24 + 100 + 24 ∧
        ∀ (k : ℕ) (hk : k < (sortBindings (bindingsFrom
            ⟨[⟨1, "container", 0, 0, 272, 148⟩, ⟨2, "element", 24, 24, 100, 100⟩,
              ⟨3, "element", 500, 500, 100, 100⟩],
              [⟨10, 1, 2, 1, false⟩, ⟨11, 1, 3, 2, false⟩], 12⟩
            (Binding.fromId ⟨11, 1, 3, 2, false⟩))).length),
          ∀ s, getShape
              ⟨[⟨1, "container", 0, 0, 272, 148⟩, ⟨2, "element", 24, 24, 100, 100⟩,
                ⟨3, "element", 500, 500, 100, 100⟩],
                [⟨10, 1, 2, 1, false⟩, ⟨11, 1, 3, 2, false⟩], 12⟩
              ((sortBindings (bindingsFrom
                ⟨[⟨1, "container", 0, 0, 272, 148⟩, ⟨2, "element", 24, 24, 100, 100⟩,
                  ⟨3, "element", 500, 500, 100, 100⟩],
                  [⟨10, 1, 2, 1, false⟩, ⟨11, 1, 3, 2, false⟩], 12⟩
                (Binding.fromId ⟨11, 1, 3, 2, false⟩))).get ⟨k, hk⟩).toId = some s →
            ∃ s', getShape (updateElementsForContainer
                ⟨[⟨1, "container", 0, 0, 272, 148⟩, ⟨2, "element", 24, 24, 100, 100⟩,
                  ⟨3, "element", 500, 500, 100, 100⟩],
                  [⟨10, 1, 2, 1, false⟩, ⟨11, 1, 3, 2, false⟩], 12⟩ ⟨11, 1, 3, 2, false⟩).1
                ((sortBindings (bindingsFrom
                  ⟨[⟨1, "container", 0, 0, 272, 148⟩, ⟨2, "element", 24, 24, 100, 100⟩,
                    ⟨3, "element", 500, 500, 100, 100⟩],
                    [⟨10, 1, 2, 1, false⟩, ⟨11, 1, 3, 2, false⟩], 12⟩
                  (Binding.fromId ⟨11, 1, 3, 2, false⟩))).get ⟨k, hk⟩).toId = some s' ∧
              s'.x = c'.x + (24 + (k : ℚ) * 124) ∧ s'.y = c'.y + 24) := by
  refine ⟨rfl, rfl, by decide, ?_⟩
  exact reflow_geometry_invariant _ ⟨11, 1, 3, 2, false⟩ ⟨1, "container", 0, 0, 272, 148⟩
    rfl rfl (by decide) (by decide) (by decide)

/-- A reflow loop pass over members that already sit at their slots writes
nothing and leaves the state alone. -/
theorem reflowLoop_noop (cid t : ℕ) (ph : Bool) :
    ∀ (L : List Binding) (i : ℕ) (st : EditorState) (w : Bool),
      (∀ (k : ℕ) (hk : k < L.length), ¬ (t = (L.get ⟨k, hk⟩).toId ∧ ph = true) →
        ∀ c s, getShape st cid = some c → getShape st (L.get ⟨k, hk⟩).toId = some s →
          s.x = c.x + (CONTAINER_PADDING + ((i + k : ℕ) : ℚ) * (100 + CONTAINER_PADDING)) ∧
            s.y = c.y + CONTAINER_PADDING) →
      reflowLoop cid t ph L i st w = (st, w) := by
  intro L
  induction L with
  | nil => intro i st w _; rfl
  | cons b rest ih =>
    intro i st w hpre
    rw [reflowLoop_cons_eq]
    have hrest : ∀ (k : ℕ) (hk : k < rest.length),
        ¬ (t = (rest.get ⟨k, hk⟩).toId ∧ ph = true) →
        ∀ c s, getShape st cid = some c → getShape st (rest.get ⟨k, hk⟩).toId = some s →
          s.x = c.x + (CONTAINER_PADDING + ((i + 1 + k : ℕ) : ℚ) * (100 + CONTAINER_PADDING)) ∧
            s.y = c.y + CONTAINER_PADDING := by
      intro k hk hns c s hc hs
      have hk' : k + 1 < (b :: rest).length := by simpa using Nat.succ_lt_succ hk
      have h := hpre (k + 1) hk' hns c s hc hs
      rw [show i + (k + 1) = i + 1 + k by omega] at h
      exact h
    by_cases hskip : t = b.toId ∧ ph = true
    · rw [if_pos hskip]
      exact ih (i + 1) st w hrest
    · rw [if_neg hskip]
      cases hs : getShape st b.toId with
      | none => exact ih (i + 1) st w hrest
      | some s =>
        cases hc : getShape st cid with
        | none => exact ih (i + 1) st w hrest
        | some c =>
          dsimp only
          have h0 := hpre 0 (by simp) hskip c s hc hs
          simp only [Nat.add_zero] at h0
          have hw : ¬ (s.x ≠ c.x + (CONTAINER_PADDING + (i : ℚ) * (100 + CONTAINER_PADDING)) ∨
              s.y ≠ c.y + CONTAINER_PADDING) := by
            push_neg
            exact ⟨h0.1, h0.2⟩
          rw [if_neg hw]
          exact ih (i + 1) st w hrest

/-- The binding lists a state exposes only depend on its binding records. -/
theorem bindingsFrom_congr {st st' : EditorState} (h : st'.bindings = st.bindings) (i : ℕ) :
    bindingsFrom st' i = bindingsFrom st i := by
  unfold bindingsFrom
  rw [h]

theorem bindingsTo_congr {st st' : EditorState} (h : st'.bindings = st.bindings) (i : ℕ) :
    bindingsTo st' i = bindingsTo st i := by
  unfold bindingsTo
  rw [h]

/-! ### Claim C8: reflow idempotence -/

/-- Claim C8: a second reflow with the same trigger and no intervening
relationship change returns the state of the first one unchanged and
performs no shape write. -/
theorem reflow_idempotent (st : EditorState) (b : Binding)
    (hnd : ((sortBindings (bindingsFrom st b.fromId)).map Binding.toId).Nodup)
    (hcid : b.fromId ∉ (sortBindings (bindingsFrom st b.fromId)).map Binding.toId) :
    updateElementsForContainer (updateElementsForContainer st b).1 b =
      ((updateElementsForContainer st b).1, false) := by
  cases hc : getShape st b.fromId with
  | none =>
    have h1 : updateElementsForContainer st b = (st, false) := uefc_nocontainer hc
    rw [h1]
    exact uefc_nocontainer hc
  | some c =>
    by_cases hemp : bindingsFrom st b.fromId = []
    · have h1 : updateElementsForContainer st b = (st, false) := uefc_nobindings hc hemp
      rw [h1]
      exact uefc_nobindings hc hemp
    · set st1 := (updateElementsForContainer st b).1 with hst1
      have hbnd : st1.bindings = st.bindings := (uefc_bindings st b).1
      have hbf : bindingsFrom st1 b.fromId = bindingsFrom st b.fromId :=
        bindingsFrom_congr hbnd b.fromId
      have hc1 : getShape st1 b.fromId =
          some { c with width := rowWidth (bindingsFrom st b.fromId).length, height := 148 } :=
        uefc_container st b c hc hemp hcid
      unfold updateElementsForContainer
      rw [hc1]
      dsimp only
      have hid : c.id = b.fromId := findShape_id hc
      simp only [hid, hbf]
      have hlpos : ¬ (sortBindings (bindingsFrom st b.fromId)).length = 0 := by
        rw [sortBindings_length]
        simpa [List.length_eq_zero] using hemp
      rw [if_neg hlpos]
      have hnoop : reflowLoop b.fromId b.toId b.placeholder
          (sortBindings (bindingsFrom st b.fromId)) 0 st1 false = (st1, false) := by
        apply reflowLoop_noop
        intro k hk hns c2 s2 hc2 hs2
        rw [hc1] at hc2
        cases hc2
        cases hpre : getShape st ((sortBindings (bindingsFrom st b.fromId)).get ⟨k, hk⟩).toId with
        | none =>
          have hsig := uefc_sig_other st b
            ((sortBindings (bindingsFrom st b.fromId)).get ⟨k, hk⟩).toId
            (by
              intro h
              have hm := List.mem_map_of_mem Binding.toId
                (List.get_mem (sortBindings (bindingsFrom st b.fromId)) k hk)
              rw [h] at hm
              exact hcid hm)
          rw [hpre] at hsig
          rw [← hst1] at hsig
          rw [hs2] at hsig
          simp at hsig
        | some s =>
          have h := (uefc_member st b c hc hnd hcid k hk).1 hns s hpre
          rw [← hst1] at h
          rw [hs2] at h
          cases h
          simp
      rw [hnoop]
      dsimp only
      have hwfalse : ¬ (CONTAINER_PADDING +
          (((sortBindings (bindingsFrom st b.fromId)).length : ℚ) * 100 +
            (((sortBindings (bindingsFrom st b.fromId)).length : ℚ) - 1) * CONTAINER_PADDING) +
          CONTAINER_PADDING ≠
            rowWidth (bindingsFrom st b.fromId).length ∨
          CONTAINER_PADDING + 100 + CONTAINER_PADDING ≠ (148 : ℚ)) := by
        push_neg
        constructor
        · rw [sortBindings_length]
          unfold rowWidth CONTAINER_PADDING
          ring
        · norm_num [CONTAINER_PADDING]
      rw [if_neg hwfalse]

/-! ### Claim C7: the placeholder skip rule -/

/-- Claim C7: during a reflow, a member keeps its position untouched exactly
when its relationship is the triggering one and that trigger is flagged as a
placeholder; every other member whose shape resolves is repositioned to its
slot.  The hypothesis honce states that the trigger's element occurs at most
once among the members, which the engine's pair-uniqueness invariant
guarantees. -/
theorem reflow_skip_characterisation (st : EditorState) (b : Binding) (c : Shape)
    (hc : getShape st b.fromId = some c)
    (hnd : ((sortBindings (bindingsFrom st b.fromId)).map Binding.toId).Nodup)
    (hcid : b.fromId ∉ (sortBindings (bindingsFrom st b.fromId)).map Binding.toId)
    (honce : ∀ m ∈ sortBindings (bindingsFrom st b.fromId), m.toId = b.toId → m = b)
    (k : ℕ) (hk : k < (sortBindings (bindingsFrom st b.fromId)).length) :
    (((sortBindings (bindingsFrom st b.fromId)).get ⟨k, hk⟩ = b ∧ b.placeholder = true) →
      getShape (updateElementsForContainer st b).1
          ((sortBindings (bindingsFrom st b.fromId)).get ⟨k, hk⟩).toId =
        getShape st ((sortBindings (bindingsFrom st b.fromId)).get ⟨k, hk⟩).toId) ∧
    (¬ ((sortBindings (bindingsFrom st b.fromId)).get ⟨k, hk⟩ = b ∧ b.placeholder = true) →
      ∀ s, getShape st ((sortBindings (bindingsFrom st b.fromId)).get ⟨k, hk⟩).toId = some s →
        ∃ s', getShape (updateElementsForContainer st b).1
            ((sortBindings (bindingsFrom st b.fromId)).get ⟨k, hk⟩).toId = some s' ∧
          s'.x = c.x + (24 + (k : ℚ) * 124) ∧ s'.y = c.y + 24) := by
  constructor
  · rintro ⟨hmb, hph⟩
    exact (uefc_member st b c hc hnd hcid k hk).2 ⟨by rw [hmb], hph⟩
  · intro hns s hs
    have hns' : ¬ (b.toId = ((sortBindings (bindingsFrom st b.fromId)).get ⟨k, hk⟩).toId ∧
        b.placeholder = true) := by
      rintro ⟨htid, hph⟩
      exact hns ⟨honce _ (List.get_mem _ _ _) htid.symm, hph⟩
    have h := (uefc_member st b c hc hnd hcid k hk).1 hns' s hs
    refine ⟨_, h, ?_, ?_⟩
    · show c.x + (CONTAINER_PADDING + (k : ℚ) * (100 + CONTAINER_PADDING)) =
        c.x + (24 + (k : ℚ) * 124)
      norm_num [CONTAINER_PADDING]
    · show c.y + CONTAINER_PADDING = c.y + 24
      norm_num [CONTAINER_PADDING]

/-- A concrete store shared by several witnesses: one container with a
committed member and a placeholder member that sits away from its slot. -/
def demoPlaceholderState : EditorState :=
  ⟨[⟨1, "container", 0, 0, 272, 148⟩, ⟨2, "element", 24, 24, 100, 100⟩,
    ⟨3, "element", 500, 500, 100, 100⟩],
    [⟨10, 1, 2, 1, false⟩, ⟨11, 1, 3, 2, true⟩], 12⟩

/-- Witness for C7 at the placeholder member of the concrete store: it is
the trigger, so its position survives the reflow. -/
theorem reflow_skip_characterisation_witness :
    (getShape demoPlaceholderState (Binding.fromId ⟨11, 1, 3, 2, true⟩) =
        some ⟨1, "container", 0, 0, 272, 148⟩) ∧
      (∀ m ∈ sortBindings (bindingsFrom demoPlaceholderState
          (Binding.fromId ⟨11, 1, 3, 2, true⟩)),
        m.toId = Binding.toId ⟨11, 1, 3, 2, true⟩ → m = ⟨11, 1, 3, 2, true⟩) ∧
      (1 < (sortBindings (bindingsFrom demoPlaceholderState
          (Binding.fromId ⟨11, 1, 3, 2, true⟩))).length) ∧
      ∀ (hk : 1 < (sortBindings (bindingsFrom demoPlaceholderState
          (Binding.fromId ⟨11, 1, 3, 2, true⟩))).length),
      ((sortBindings (bindingsFrom demoPlaceholderState
            (Binding.fromId ⟨11, 1, 3, 2, true⟩))).get ⟨1, hk⟩ = ⟨11, 1, 3, 2, true⟩ ∧
          Binding.placeholder ⟨11, 1, 3, 2, true⟩ = true) →
        getShape (updateElementsForContainer demoPlaceholderState ⟨11, 1, 3, 2, true⟩).1
            ((sortBindings (bindingsFrom demoPlaceholderState
              (Binding.fromId ⟨11, 1, 3, 2, true⟩))).get ⟨1, hk⟩).toId =
          getShape demoPlaceholderState
            ((sortBindings (bindingsFrom demoPlaceholderState
              (Binding.fromId ⟨11, 1, 3, 2, true⟩))).get ⟨1, hk⟩).toId := by
  refine ⟨rfl, by decide, by decide, ?_⟩
  intro hk
  exact (reflow_skip_characterisation demoPlaceholderState ⟨11, 1, 3, 2, true⟩
    ⟨1, "container", 0, 0, 272, 148⟩ rfl (by decide) (by decide) (by decide) 1 hk).1

/-- Witness for C8 on the concrete store: the second reflow is the identity
and reports no write. -/
theorem reflow_idempotent_witness :
    ((List.map Binding.toId (sortBindings (bindingsFrom demoPlaceholderState
        (Binding.fromId ⟨11, 1, 3, 2, true⟩)))).Nodup) ∧
      (Binding.fromId ⟨11, 1, 3, 2, true⟩ ∉ List.map Binding.toId
        (sortBindings (bindingsFrom demoPlaceholderState
          (Binding.fromId ⟨11, 1, 3, 2, true⟩)))) ∧
      updateElementsForContainer
          (updateElementsForContainer demoPlaceholderState ⟨11, 1, 3, 2, true⟩).1
          ⟨11, 1, 3, 2, true⟩ =
        ((updateElementsForContainer demoPlaceholderState ⟨11, 1, 3, 2, true⟩).1, false) :=
  ⟨by decide, by decide,
    reflow_idempotent demoPlaceholderState ⟨11, 1, 3, 2, true⟩ (by decide) (by decide)⟩

/-! ### Bridge lemmas for the slot computation -/

theorem listGet?_neg : ∀ (L : List Binding) {z : ℤ}, z < 0 → listGet? L z = none := by
  intro L
  induction L with
  | nil => intro z _; rfl
  | cons b rest ih =>
    intro z hz
    unfold listGet?
    rw [if_pos hz]

theorem listGet?_coe : ∀ (L : List Binding) (k : ℕ), listGet? L (k : ℤ) = L.get? k := by
  intro L
  induction L with
  | nil => intro k; cases k <;> rfl
  | cons b rest ih =>
    intro k
    cases k with
    | zero => rfl
    | succ k =>
      unfold listGet?
      have h1 : ¬ ((k + 1 : ℕ) : ℤ) < 0 := by omega
      have h2 : ¬ ((k + 1 : ℕ) : ℤ) = 0 := by omega
      rw [if_neg h1, if_neg h2]
      have h3 : ((k + 1 : ℕ) : ℤ) - 1 = (k : ℤ) := by omega
      rw [h3, ih k]
      rfl

theorem jsClamp_nonneg {v hi : ℤ} (hhi : 0 ≤ hi) : 0 ≤ jsClamp v 0 hi := by
  unfold jsClamp
  split_ifs <;> omega

theorem jsClamp_le {v hi : ℤ} (hhi : 0 ≤ hi) : jsClamp v 0 hi ≤ hi := by
  unfold jsClamp
  split_ifs <;> omega

theorem jsClamp_le_of {v hi n : ℤ} (hv : v ≤ n) (hn : 0 ≤ n) : jsClamp v 0 hi ≤ n := by
  unfold jsClamp
  split_ifs <;> omega

theorem jsRound_le_nat {q : ℚ} {n : ℕ} (h : q ≤ (n : ℚ)) : jsRound q ≤ (n : ℤ) := by
  unfold jsRound
  have h1 : q + 1 / 2 ≤ (n : ℚ) + 1 / 2 := by linarith
  have h2 : ⌊(n : ℚ) + 1 / 2⌋ = (n : ℤ) := by
    rw [show ((n : ℚ) + 1 / 2) = 1 / 2 + ((n : ℤ) : ℚ) by push_cast; ring]
    rw [Int.floor_add_int]
    norm_num
  calc ⌊q + 1 / 2⌋ ≤ ⌊(n : ℚ) + 1 / 2⌋ := Int.floor_le_floor h1
    _ = (n : ℤ) := h2

theorem pairwise_get_lt {L : List Binding}
    (h : L.Pairwise (fun a b => a.index < b.index)) {i j : ℕ}
    (hi : i < L.length) (hj : j < L.length) (hij : i < j) :
    (L.get ⟨i, hi⟩).index < (L.get ⟨j, hj⟩).index := by
  exact List.pairwise_iff_get.mp h ⟨i, hi⟩ ⟨j, hj⟩ hij

/-! ### Structure of the per-container binding lists -/

theorem bindingsFromList_sublist (l : List Binding) (i : ℕ) :
    (bindingsFromList l i).Sublist l := by
  induction l with
  | nil => simp [bindingsFromList]
  | cons b rest ih =>
    unfold bindingsFromList
    by_cases h : b.fromId = i
    · rw [if_pos h]; exact ih.cons₂ b
    · rw [if_neg h]; exact ih.cons b

theorem mem_bindingsFromList {l : List Binding} {i : ℕ} {b : Binding} :
    b ∈ bindingsFromList l i ↔ b ∈ l ∧ b.fromId = i := by
  induction l with
  | nil => simp [bindingsFromList]
  | cons a rest ih =>
    unfold bindingsFromList
    by_cases h : a.fromId = i
    · rw [if_pos h]
      simp only [List.mem_cons, ih]
      constructor
      · rintro (rfl | ⟨hb, hbi⟩)
        · exact ⟨Or.inl rfl, h⟩
        · exact ⟨Or.inr hb, hbi⟩
      · rintro ⟨rfl | hb, hbi⟩
        · exact Or.inl rfl
        · exact Or.inr ⟨hb, hbi⟩
    · rw [if_neg h]
      simp only [List.mem_cons, ih]
      constructor
      · rintro ⟨hb, hbi⟩
        exact ⟨Or.inr hb, hbi⟩
      · rintro ⟨rfl | hb, hbi⟩
        · exact absurd hbi h
        · exact ⟨hb, hbi⟩

theorem bindingsToList_sublist (l : List Binding) (i : ℕ) :
    (bindingsToList l i).Sublist l := by
  induction l with
  | nil => simp [bindingsToList]
  | cons b rest ih =>
    unfold bindingsToList
    by_cases h : b.toId = i
    · rw [if_pos h]; exact ih.cons₂ b
    · rw [if_neg h]; exact ih.cons b

theorem mem_bindingsToList {l : List Binding} {i : ℕ} {b : Binding} :
    b ∈ bindingsToList l i ↔ b ∈ l ∧ b.toId = i := by
  induction l with
  | nil => simp [bindingsToList]
  | cons a rest ih =>
    unfold bindingsToList
    by_cases h : a.toId = i
    · rw [if_pos h]
      simp only [List.mem_cons, ih]
      constructor
      · rintro (rfl | ⟨hb, hbi⟩)
        · exact ⟨Or.inl rfl, h⟩
        · exact ⟨Or.inr hb, hbi⟩
      · rintro ⟨rfl | hb, hbi⟩
        · exact Or.inl rfl
        · exact Or.inr ⟨hb, hbi⟩
    · rw [if_neg h]
      simp only [List.mem_cons, ih]
      constructor
      · rintro ⟨hb, hbi⟩
        exact ⟨Or.inr hb, hbi⟩
      · rintro ⟨rfl | hb, hbi⟩
        · exact absurd hbi h
        · exact ⟨hb, hbi⟩

/-- With container-wise distinct keys, the sorted sibling list of one
container is strictly increasing. -/
theorem sortBindings_bindingsFrom_strict (st : EditorState) (i : ℕ)
    (hkeys : st.bindings.Pairwise (fun a b => a.fromId = b.fromId → a.index ≠ b.index)) :
    (sortBindings (bindingsFrom st i)).Pairwise (fun a b => a.index < b.index) := by
  have h1 : (bindingsFrom st i).Pairwise (fun a b => a.fromId = b.fromId → a.index ≠ b.index) :=
    hkeys.sublist (bindingsFromList_sublist st.bindings i)
  have h2 : (bindingsFrom st i).Pairwise (fun a b => a.index ≠ b.index) := by
    refine List.Pairwise.imp_of_mem ?_ h1
    intro a b ha hb hr
    exact hr ((mem_bindingsFromList.mp ha).2.trans (mem_bindingsFromList.mp hb).2.symm)
  have h3 := sortBindings_sorted (bindingsFrom st i)
  have h4 := sortBindings_pairwise_of (fun a b h => h.symm) h2
  exact (h3.and h4).imp (fun h => lt_of_le_of_ne h.1 h.2)

theorem filter_length_lt {p : Binding → Bool} {l : List Binding} {m : Binding}
    (hm : m ∈ l) (hpm : p m = false) : (l.filter p).length < l.length := by
  induction l with
  | nil => simp at hm
  | cons a rest ih =>
    rcases List.mem_cons.mp hm with rfl | hm'
    · rw [List.filter_cons, hpm]
      have := List.length_filter_le p rest
      simpa using Nat.lt_succ_of_le this
    · rw [List.filter_cons]
      cases hpa : p a
      · have := ih hm'
        simpa using Nat.lt_succ_of_lt this
      · simpa using Nat.succ_lt_succ (ih hm')

/-- Strictly sorted lists bound every member away from a value that lies
strictly between two adjacent entries, strictly below the first entry, or
strictly above the last entry. -/
theorem sorted_first_le {L : List Binding}
    (h : L.Pairwise (fun a b => a.index < b.index)) (hn : 0 < L.length) :
    ∀ m ∈ L, (L.get ⟨0, hn⟩).index ≤ m.index := by
  intro m hm
  obtain ⟨⟨j, hj⟩, rfl⟩ := List.mem_iff_get.mp hm
  cases j with
  | zero => exact le_rfl
  | succ j => exact le_of_lt (pairwise_get_lt h hn hj (Nat.succ_pos j))

theorem sorted_le_last {L : List Binding}
    (h : L.Pairwise (fun a b => a.index < b.index)) (hn : 0 < L.length) :
    ∀ m ∈ L, m.index ≤ (L.get ⟨L.length - 1, by omega⟩).index := by
  intro m hm
  obtain ⟨⟨j, hj⟩, rfl⟩ := List.mem_iff_get.mp hm
  by_cases hje : j = L.length - 1
  · subst hje; exact le_rfl
  · exact le_of_lt (pairwise_get_lt h hj (by omega) (by omega))

/-- The allocated slot key: either the element's own key among the sorted
siblings is reused, or the allocator is called with two adjacent bounds (or
one open end) and its result differs from every key in the container.  The
geometry hypothesis is only needed when the element has no own relationship
in the container: the anchor lies within the container's width and that
width is settled. -/
theorem freshKey (st : EditorState) (e c : Shape) (ax : ℚ)
    (hstrict : (sortBindings (bindingsFrom st c.id)).Pairwise (fun a b => a.index < b.index))
    (hgeom : (∀ m ∈ bindingsFrom st c.id, m.toId ≠ e.id) →
      1 ≤ (bindingsFrom st c.id).length →
      ax ≤ c.x + c.width ∧ c.width = rowWidth (bindingsFrom st c.id).length) :
    (∃ own ∈ sortBindings (bindingsFrom st c.id), own.toId = e.id ∧
        getBindingIndexForPosition st e c ax = own.index) ∨
    (∀ m ∈ sortBindings (bindingsFrom st c.id),
        m.index ≠ getBindingIndexForPosition st e c ax) := by
  by_cases hn0 : (sortBindings (bindingsFrom st c.id)).length = 0
  · right
    intro m hm
    rw [List.length_eq_zero] at hn0
    rw [hn0] at hm
    simp at hm
  · have hn1 : 1 ≤ (sortBindings (bindingsFrom st c.id)).length := by omega
    have hnlen : 1 ≤ (bindingsFrom st c.id).length := by
      rw [← sortBindings_length]; exact hn1
    set L := sortBindings (bindingsFrom st c.id) with hL
    set q := jsRound ((ax - c.x - CONTAINER_PADDING) / (100 + CONTAINER_PADDING)) with hq
    set sibs := L.filter (fun b => decide (b.toId ≠ e.id)) with hsibs
    set ord := jsClamp q 0 (sibs.length + 1) with hord
    have hord0 : 0 ≤ ord := jsClamp_nonneg (by omega)
    have hordn : ord ≤ (L.length : ℤ) := by
      by_cases hown : ∃ m ∈ L, m.toId = e.id
      · obtain ⟨m, hm, hme⟩ := hown
        have hflt : (sibs.length : ℤ) < (L.length : ℤ) := by
          have := filter_length_lt (p := fun b => decide (b.toId ≠ e.id)) hm
            (by simp [hme])
          exact_mod_cast this
        calc ord ≤ (sibs.length : ℤ) + 1 := jsClamp_le (by omega)
          _ ≤ (L.length : ℤ) := by omega
      · push_neg at hown
        have hallb : ∀ m ∈ bindingsFrom st c.id, m.toId ≠ e.id := by
          intro m hm
          exact hown m ((sortBindings_perm _).mem_iff.mpr hm)
        obtain ⟨hax, hw⟩ := hgeom hallb hnlen
        have hq_le : (ax - c.x - CONTAINER_PADDING) / (100 + CONTAINER_PADDING) ≤
            ((bindingsFrom st c.id).length : ℚ) := by
          rw [div_le_iff₀ (by norm_num [CONTAINER_PADDING])]
          have : rowWidth (bindingsFrom st c.id).length =
              124 * ((bindingsFrom st c.id).length : ℚ) + 24 := by
            unfold rowWidth; ring
          rw [this] at hw
          rw [show ((100 : ℚ) + CONTAINER_PADDING) = 124 by norm_num [CONTAINER_PADDING]]
          have : ax ≤ c.x + (124 * ((bindingsFrom st c.id).length : ℚ) + 24) := hw ▸ hax
          norm_num [CONTAINER_PADDING]
          linarith
        have hqn : q ≤ ((bindingsFrom st c.id).length : ℤ) := jsRound_le_nat hq_le
        have : (L.length : ℤ) = ((bindingsFrom st c.id).length : ℤ) := by
          exact_mod_cast congrArg Nat.cast (sortBindings_length (bindingsFrom st c.id))
        rw [this]
        exact jsClamp_le_of hqn (by omega)
    set o := ord.toNat with ho
    have hoord : (o : ℤ) = ord := Int.toNat_of_nonneg hord0
    have hon : o ≤ L.length := by omega
    simp only [getBindingIndexForPosition]
    rw [← hL, ← hsibs, ← hord]
    rcases Nat.eq_zero_or_pos o with ho0 | hopos
    · -- slot 0: no below neighbour
      have hbel : listGet? L (ord - 1) = none := listGet?_neg L (by omega)
      have habv : listGet? L ord = some (L.get ⟨0, by omega⟩) := by
        rw [← hoord, ho0]
        rw [listGet?_coe]
        exact List.get?_eq_get (by omega)
      rw [hbel, habv]
      dsimp only
      by_cases howna : (L.get ⟨0, by omega⟩).toId = e.id
      · left
        exact ⟨L.get ⟨0, by omega⟩, List.get_mem _ _ _, howna, by rw [if_pos howna]⟩
      · right
        rw [if_neg howna]
        intro m hm
        have hmin := sorted_first_le hstrict (by omega) m hm
        simp only [getIndexBetween]
        intro heq
        rw [heq] at hmin
        linarith
    · rcases Nat.lt_or_ge o L.length with holt | hoge
      · -- both neighbours present
        have hbel : listGet? L (ord - 1) = some (L.get ⟨o - 1, by omega⟩) := by
          rw [show ord - 1 = ((o - 1 : ℕ) : ℤ) by omega]
          rw [listGet?_coe]
          exact List.get?_eq_get (by omega)
        have habv : listGet? L ord = some (L.get ⟨o, holt⟩) := by
          rw [← hoord, listGet?_coe]
          exact List.get?_eq_get holt
        rw [hbel, habv]
        dsimp only
        by_cases hbo : (L.get ⟨o - 1, by omega⟩).toId = e.id
        · left
          exact ⟨L.get ⟨o - 1, by omega⟩, List.get_mem _ _ _, hbo, by rw [if_pos hbo]⟩
        · rw [if_neg hbo]
          by_cases hao : (L.get ⟨o, holt⟩).toId = e.id
          · left
            exact ⟨L.get ⟨o, holt⟩, List.get_mem _ _ _, hao, by rw [if_pos hao]⟩
          · right
            rw [if_neg hao]
            intro m hm
            simp only [getIndexBetween]
            have hadj : (L.get ⟨o - 1, by omega⟩).index < (L.get ⟨o, holt⟩).index :=
              pairwise_get_lt hstrict (by omega) holt (by omega)
            obtain ⟨⟨j, hj⟩, rfl⟩ := List.mem_iff_get.mp hm
            intro heq
            rcases Nat.lt_or_ge j o with hjo | hjo
            · have hle : (L.get ⟨j, hj⟩).index ≤ (L.get ⟨o - 1, by omega⟩).index := by
                by_cases hje : j = o - 1
                · subst hje; exact le_rfl
                · exact le_of_lt (pairwise_get_lt hstrict hj (by omega) (by omega))
              rw [heq] at hle
              linarith
            · have hge : (L.get ⟨o, holt⟩).index ≤ (L.get ⟨j, hj⟩).index := by
                by_cases hje : j = o
                · subst hje; exact le_rfl
                · exact le_of_lt (pairwise_get_lt hstrict holt hj (by omega))
              rw [heq] at hge
              linarith
      · -- slot at the end: no above neighbour
        have hoeq : o = L.length := by omega
        have hbel : listGet? L (ord - 1) = some (L.get ⟨L.length - 1, by omega⟩) := by
          rw [show ord - 1 = ((L.length - 1 : ℕ) : ℤ) by omega]
          rw [listGet?_coe]
          exact List.get?_eq_get (by omega)
        have habv : listGet? L ord = none := by
          rw [← hoord, listGet?_coe]
          exact List.get?_eq_none.mpr (by omega)
        rw [hbel, habv]
        dsimp only
        by_cases hbo : (L.get ⟨L.length - 1, by omega⟩).toId = e.id
        · left
          exact ⟨L.get ⟨L.length - 1, by omega⟩, List.get_mem _ _ _, hbo, by rw [if_pos hbo]⟩
        · right
          rw [if_neg hbo]
          intro m hm
          have hmax := sorted_le_last hstrict (by omega) m hm
          simp only [getIndexBetween]
          intro heq
          rw [heq] at hmax
          linarith

/-! ### Record identity helpers -/

theorem findShape_mem : ∀ {l : List Shape} {i : ℕ} {s : Shape}, findShape l i = some s → s ∈ l := by
  intro l
  induction l with
  | nil => intro i s h; simp [findShape] at h
  | cons a rest ih =>
    intro i s h
    by_cases ha : a.id = i
    · simp only [findShape, if_pos ha] at h
      cases h
      exact List.mem_cons_self a rest
    · simp only [findShape, if_neg ha] at h
      exact List.mem_cons_of_mem a (ih h)

theorem nodup_id_inj {l : List Binding} (hnd : (l.map Binding.id).Nodup) {a b : Binding}
    (ha : a ∈ l) (hb : b ∈ l) (hid : a.id = b.id) : a = b := by
  have := List.inj_on_of_nodup_map hnd
  exact this ha hb hid

theorem nodup_shape_id_inj {l : List Shape} (hnd : (l.map Shape.id).Nodup) {a b : Shape}
    (ha : a ∈ l) (hb : b ∈ l) (hid : a.id = b.id) : a = b := by
  have := List.inj_on_of_nodup_map hnd
  exact this ha hb hid

theorem findShape_of_mem : ∀ {l : List Shape}, (l.map Shape.id).Nodup → ∀ {s : Shape}, s ∈ l →
    findShape l s.id = some s := by
  intro l
  induction l with
  | nil => intro _ s h; simp at h
  | cons a rest ih =>
    intro hnd s hs
    simp only [List.map_cons, List.nodup_cons] at hnd
    rcases List.mem_cons.mp hs with rfl | hs'
    · simp [findShape]
    · have hne : ¬ a.id = s.id := by
        intro h
        exact hnd.1 (h ▸ List.mem_map_of_mem Shape.id hs')
      simp only [findShape, if_neg hne]
      exact ih hnd.2 hs'

theorem map_id_of_preserving (f : Shape → Shape) (hf : ∀ s, (f s).id = s.id) :
    ∀ l : List Shape, (l.map f).map Shape.id = l.map Shape.id := by
  intro l
  induction l with
  | nil => rfl
  | cons a rest ih => simp [hf a, ih]

theorem updateShapePos_ids (st : EditorState) (i : ℕ) (px py : ℚ) :
    ((updateShapePos st i px py).shapes.map Shape.id) = st.shapes.map Shape.id :=
  map_id_of_preserving _ (fun s => by by_cases h : s.id = i <;> simp [h]) st.shapes

theorem updateShapeSize_ids (st : EditorState) (i : ℕ) (w h : ℚ) :
    ((updateShapeSize st i w h).shapes.map Shape.id) = st.shapes.map Shape.id :=
  map_id_of_preserving _ (fun s => by by_cases hh : s.id = i <;> simp [hh]) st.shapes

theorem reflowLoop_ids (cid t : ℕ) (ph : Bool) :
    ∀ (L : List Binding) (i : ℕ) (st : EditorState) (w : Bool),
      ((reflowLoop cid t ph L i st w).1.shapes.map Shape.id) = st.shapes.map Shape.id := by
  intro L
  induction L with
  | nil => intro i st w; rfl
  | cons b rest ih =>
    intro i st w
    rw [reflowLoop_cons_eq]
    by_cases hskip : t = b.toId ∧ ph = true
    · rw [if_pos hskip]; exact ih _ _ _
    · rw [if_neg hskip]
      cases hs : getShape st b.toId with
      | none => exact ih _ _ _
      | some s =>
        cases hc : getShape st cid with
        | none => exact ih _ _ _
        | some c =>
          dsimp only
          by_cases hw : s.x ≠ c.x + (CONTAINER_PADDING + (i : ℚ) * (100 + CONTAINER_PADDING)) ∨
              s.y ≠ c.y + CONTAINER_PADDING
          · rw [if_pos hw, ih, updateShapePos_ids]
          · rw [if_neg hw]; exact ih _ _ _

theorem uefc_ids (st : EditorState) (b : Binding) :
    ((updateElementsForContainer st b).1.shapes.map Shape.id) = st.shapes.map Shape.id := by
  unfold updateElementsForContainer
  cases hc : getShape st b.fromId with
  | none => rfl
  | some container =>
    dsimp only
    by_cases hlen : (sortBindings (bindingsFrom st container.id)).length = 0
    · rw [if_pos hlen]
    · rw [if_neg hlen]
      by_cases hw : CONTAINER_PADDING + (((sortBindings (bindingsFrom st container.id)).length :
            ℚ) * 100 + (((sortBindings (bindingsFrom st container.id)).length : ℚ) - 1) *
            CONTAINER_PADDING) + CONTAINER_PADDING ≠ container.width ∨
          CONTAINER_PADDING + 100 + CONTAINER_PADDING ≠ container.height
      · rw [if_pos hw]
        rw [updateShapeSize_ids, reflowLoop_ids]
      · rw [if_neg hw]
        exact reflowLoop_ids _ _ _ _ _ _ _

/-- The id and type tag of every shape survive a reflow invocation. -/
theorem uefc_idstype (st : EditorState) (b : Binding) (j : ℕ) :
    (getShape (updateElementsForContainer st b).1 j).map (fun s => (s.id, s.stype)) =
      (getShape st j).map (fun s => (s.id, s.stype)) := by
  unfold updateElementsForContainer
  cases hc : getShape st b.fromId with
  | none => rfl
  | some container =>
    dsimp only
    by_cases hlen : (sortBindings (bindingsFrom st container.id)).length = 0
    · rw [if_pos hlen]
    · rw [if_neg hlen]
      have hsig := reflowLoop_sig container.id b.toId b.placeholder
        (sortBindings (bindingsFrom st container.id)) 0 st false j
      have hsig' : (getShape (reflowLoop container.id b.toId b.placeholder
          (sortBindings (bindingsFrom st container.id)) 0 st false).1 j).map
            (fun s => (s.id, s.stype)) = (getShape st j).map (fun s => (s.id, s.stype)) := by
        cases h1 : getShape (reflowLoop container.id b.toId b.placeholder
            (sortBindings (bindingsFrom st container.id)) 0 st false).1 j with
        | none =>
          rw [h1] at hsig
          cases h2 : getShape st j with
          | none => rfl
          | some u => rw [h2] at hsig; simp at hsig
        | some u =>
          rw [h1] at hsig
          cases h2 : getShape st j with
          | none => rw [h2] at hsig; simp at hsig
          | some v =>
            rw [h2] at hsig
            simp only [Option.map_some', Option.some.injEq, Prod.mk.injEq] at hsig
            obtain ⟨e1, e2, -⟩ := hsig
            simp [e1, e2]
      by_cases hw : CONTAINER_PADDING + (((sortBindings (bindingsFrom st container.id)).length :
            ℚ) * 100 + (((sortBindings (bindingsFrom st container.id)).length : ℚ) - 1) *
            CONTAINER_PADDING) + CONTAINER_PADDING ≠ container.width ∨
          CONTAINER_PADDING + 100 + CONTAINER_PADDING ≠ container.height
      · rw [if_pos hw]
        rw [getShape_updateShapeSize]
        cases h1 : getShape (reflowLoop container.id b.toId b.placeholder
            (sortBindings (bindingsFrom st container.id)) 0 st false).1 j with
        | none =>
          rw [h1] at hsig'
          exact hsig'
        | some u =>
          rw [h1] at hsig'
          simp only [Option.map_some'] at hsig' ⊢
          rw [← hsig']
          by_cases hu : u.id = container.id
          · simp [hu]
          · simp [hu]
      · rw [if_neg hw]
        exact hsig'

theorem exists_shape_of_idstype {st st' : EditorState}
    (h : ∀ j, (getShape st' j).map (fun s => (s.id, s.stype)) =
      (getShape st j).map (fun s => (s.id, s.stype)))
    {j : ℕ} {s : Shape} (hs : getShape st j = some s) :
    ∃ s', getShape st' j = some s' ∧ s'.id = s.id ∧ s'.stype = s.stype := by
  have hj := h j
  rw [hs] at hj
  cases h1 : getShape st' j with
  | none => rw [h1] at hj; simp at hj
  | some u =>
    rw [h1] at hj
    simp only [Option.map_some', Option.some.injEq, Prod.mk.injEq] at hj
    exact ⟨u, rfl, hj.1, hj.2⟩

/-- A reflow invocation preserves the record-level invariant. -/
theorem uefc_core (st : EditorState) (b : Binding) (h : EngineInvCore st) :
    EngineInvCore (updateElementsForContainer st b).1 := by
  obtain ⟨hbnd, hnxt⟩ := uefc_bindings st b
  refine ⟨?_, ?_, ?_, ?_, ?_, ?_, ?_, ?_⟩
  · rw [uefc_ids]; exact h.shapesNodup
  · rw [hbnd]; exact h.bindingsNodup
  · rw [hbnd, hnxt]; exact h.idsFresh
  · rw [hbnd]
    intro m hm
    obtain ⟨s, hs, hst⟩ := h.fromContainer m hm
    obtain ⟨s', hs', _, hst'⟩ := exists_shape_of_idstype (uefc_idstype st b) hs
    exact ⟨s', hs', hst'.trans hst⟩
  · rw [hbnd]
    intro m hm
    obtain ⟨s, hs, hst⟩ := h.toElement m hm
    obtain ⟨s', hs', _, hst'⟩ := exists_shape_of_idstype (uefc_idstype st b) hs
    exact ⟨s', hs', hst'.trans hst⟩
  · rw [hbnd]; exact h.pairUnique
  · rw [hbnd]; exact h.oneActive
  · rw [hbnd]; exact h.keysUnique

/-- Under the record-level invariant, a container is never one of its own
members. -/
theorem container_not_member (st : EditorState) (h : EngineInvCore st) (i : ℕ) :
    i ∉ (sortBindings (bindingsFrom st i)).map Binding.toId := by
  intro hmem
  obtain ⟨m, hm, hmi⟩ := List.mem_map.mp hmem
  have hm' : m ∈ bindingsFrom st i := (sortBindings_perm _).mem_iff.mp hm
  obtain ⟨hmb, hmfrom⟩ := mem_bindingsFromList.mp hm'
  obtain ⟨se, hse, hsee⟩ := h.toElement m hmb
  obtain ⟨sc, hsc, hscc⟩ := h.fromContainer m hmb
  rw [hmfrom] at hsc
  rw [hmi] at hse
  rw [hse] at hsc
  cases hsc
  rw [hsee] at hscc
  simp at hscc

/-- A reflow invocation preserves the full invariant. -/
theorem uefc_inv (st : EditorState) (b : Binding) (hInv : EngineInv st) :
    EngineInv (updateElementsForContainer st b).1 := by
  cases hc : getShape st b.fromId with
  | none => rw [uefc_nocontainer hc]; exact hInv
  | some c =>
    by_cases hemp : bindingsFrom st b.fromId = []
    · rw [uefc_nobindings hc hemp]; exact hInv
    · have hcore := uefc_core st b hInv.toEngineInvCore
      refine ⟨hcore, ?_⟩
      intro s' hs' hstype'
      have hlook : getShape (updateElementsForContainer st b).1 s'.id = some s' := by
        unfold getShape
        exact findShape_of_mem hcore.shapesNodup hs'
      have hbnd := (uefc_bindings st b).1
      have hbf : ∀ i, bindingsFrom (updateElementsForContainer st b).1 i = bindingsFrom st i :=
        fun i => bindingsFrom_congr hbnd i
      by_cases hsid : s'.id = b.fromId
      · have hcid := container_not_member st hInv.toEngineInvCore b.fromId
        have hcont := uefc_container st b c hc hemp hcid
        rw [hsid] at hlook
        rw [hcont] at hlook
        injection hlook with hlook
        constructor
        · intro hn
          rw [hbf, hsid]
          constructor
          · rw [← hlook]
          · rw [← hlook]
        · intro hn
          rw [hbf, hsid] at hn
          rw [List.length_eq_zero] at hn
          exact absurd hn hemp
      · have hother := uefc_sig_other st b s'.id hsid
        rw [hlook] at hother
        cases h2 : getShape st s'.id with
        | none => rw [h2] at hother; simp at hother
        | some s₀ =>
          rw [h2] at hother
          simp only [Option.map_some', Option.some.injEq, Prod.mk.injEq] at hother
          obtain ⟨hids, hsty, hwi, hhe⟩ := hother
          have hs₀mem : s₀ ∈ st.shapes := findShape_mem h2
          have hsettled := hInv.settled s₀ hs₀mem (hsty ▸ hstype')
          constructor
          · intro hn
            rw [hbf] at hn ⊢
            rw [hids] at hn ⊢
            obtain ⟨hw1, hh1⟩ := hsettled.1 hn
            exact ⟨hwi.trans hw1, hhe.trans hh1⟩
          · intro hn
            rw [hbf, hids] at hn
            obtain ⟨hw1, hh1⟩ := hsettled.2 hn
            rw [hwi, hhe]
            exact ⟨hw1, hh1⟩

theorem map_id_on {f : Binding → Binding} : ∀ {l : List Binding}, (∀ x ∈ l, f x = x) →
    l.map f = l := by
  intro l
  induction l with
  | nil => intro _; rfl
  | cons a rest ih =>
    intro h
    simp only [List.map_cons]
    rw [h a (List.mem_cons_self _ _), ih (fun x hx => h x (List.mem_cons_of_mem _ hx))]

/-- Replacing a record by id in a list with unique ids is list surgery at the
record's position. -/
theorem replace_by_id {l : List Binding} (hnd : (l.map Binding.id).Nodup) {b₀ bnew : Binding}
    (hmem : b₀ ∈ l) (hid : bnew.id = b₀.id) :
    ∃ l1 l2, l = l1 ++ b₀ :: l2 ∧
      l.map (fun a => if a.id = bnew.id then bnew else a) = l1 ++ bnew :: l2 := by
  induction l with
  | nil => simp at hmem
  | cons a rest ih =>
    simp only [List.map_cons, List.nodup_cons] at hnd
    rcases List.mem_cons.mp hmem with rfl | hmem'
    · refine ⟨[], rest, rfl, ?_⟩
      simp only [List.map_cons, List.nil_append]
      rw [if_pos (by rw [hid])]
      congr 1
      apply map_id_on
      intro x hx
      rw [if_neg]
      intro hxe
      exact hnd.1 (by rw [← hid, ← hxe]; exact List.mem_map_of_mem Binding.id hx)
    · obtain ⟨l1, l2, h1, h2⟩ := ih hnd.2 hmem'
      refine ⟨a :: l1, l2, by simp [h1], ?_⟩
      simp only [List.map_cons, List.cons_append]
      rw [if_neg, h2]
      intro hae
      rw [hid] at hae
      exact hnd.1 (by rw [hae]; exact List.mem_map_of_mem Binding.id hmem')

theorem pairwise_replace {R : Binding → Binding → Prop} {l1 l2 : List Binding} {b₀ bnew : Binding}
    (h : (l1 ++ b₀ :: l2).Pairwise R)
    (h1 : ∀ x ∈ l1, R x b₀ → R x bnew) (h2 : ∀ y ∈ l2, R b₀ y → R bnew y) :
    (l1 ++ bnew :: l2).Pairwise R := by
  rw [List.pairwise_append] at h ⊢
  obtain ⟨ha, hb, hab⟩ := h
  rw [List.pairwise_cons] at hb ⊢
  refine ⟨ha, ⟨fun y hy => h2 y hy (hb.1 y hy), hb.2⟩, ?_⟩
  intro x hx y hy
  rcases List.mem_cons.mp hy with rfl | hy'
  · exact h1 x hx (hab x hx b₀ (List.mem_cons_self _ _))
  · exact hab x hx y (List.mem_cons_of_mem _ hy')

theorem bindingsFromList_append (l1 l2 : List Binding) (i : ℕ) :
    bindingsFromList (l1 ++ l2) i = bindingsFromList l1 i ++ bindingsFromList l2 i := by
  induction l1 with
  | nil => rfl
  | cons a rest ih =>
    simp only [List.cons_append, bindingsFromList]
    by_cases h : a.fromId = i
    · simp [h, ih]
    · simp [h, ih]

theorem bindingsToList_append (l1 l2 : List Binding) (i : ℕ) :
    bindingsToList (l1 ++ l2) i = bindingsToList l1 i ++ bindingsToList l2 i := by
  induction l1 with
  | nil => rfl
  | cons a rest ih =>
    simp only [List.cons_append, bindingsToList]
    by_cases h : a.toId = i
    · simp [h, ih]
    · simp [h, ih]

/-- Replacing a binding record in place with the same endpoints, a
placeholder flag set, and a reused-or-fresh key preserves the invariant. -/
theorem updateBindingRecord_inv (st : EditorState) (bnew b₀ : Binding) (hInv : EngineInv st)
    (hmem : b₀ ∈ st.bindings) (hid : bnew.id = b₀.id) (hfrom : bnew.fromId = b₀.fromId)
    (hto : bnew.toId = b₀.toId) (hph : bnew.placeholder = true)
    (hkey : bnew.index = b₀.index ∨
      ∀ m ∈ st.bindings, m.fromId = bnew.fromId → m.index ≠ bnew.index) :
    EngineInv (updateBindingRecord st bnew) := by
  obtain ⟨l1, l2, hsplit, hmap⟩ := replace_by_id hInv.bindingsNodup hmem hid
  have hbnd : (updateBindingRecord st bnew).bindings = l1 ++ bnew :: l2 := hmap
  have hshapes : (updateBindingRecord st bnew).shapes = st.shapes := rfl
  have hnext : (updateBindingRecord st bnew).nextBindingId = st.nextBindingId := rfl
  have hget : ∀ j, getShape (updateBindingRecord st bnew) j = getShape st j := fun j => rfl
  have hmemold : ∀ x, x ∈ l1 ++ b₀ :: l2 → x ∈ st.bindings := by
    intro x hx
    rw [hsplit]
    exact hx
  have hlen : ∀ i, (bindingsFrom (updateBindingRecord st bnew) i).length =
      (bindingsFrom st i).length := by
    intro i
    show (bindingsFromList (updateBindingRecord st bnew).bindings i).length = _
    rw [hbnd]
    conv_rhs => rw [show bindingsFrom st i = bindingsFromList st.bindings i from rfl, hsplit]
    rw [bindingsFromList_append, bindingsFromList_append]
    simp only [bindingsFromList]
    by_cases h : b₀.fromId = i <;> simp [hfrom, h]
  refine ⟨⟨?_, ?_, ?_, ?_, ?_, ?_, ?_, ?_⟩, ?_⟩
  · rw [hshapes]; exact hInv.shapesNodup
  · rw [hbnd]
    have : (l1 ++ bnew :: l2).map Binding.id = (l1 ++ b₀ :: l2).map Binding.id := by
      simp [hid]
    rw [this, ← hsplit]
    exact hInv.bindingsNodup
  · rw [hbnd, hnext]
    intro m hm
    rcases List.mem_append.mp hm with hm1 | hm2
    · exact hInv.idsFresh m (hmemold m (List.mem_append.mpr (Or.inl hm1)))
    · rcases List.mem_cons.mp hm2 with rfl | hm3
      · rw [hid]
        exact hInv.idsFresh b₀ hmem
      · exact hInv.idsFresh m
          (hmemold m (List.mem_append.mpr (Or.inr (List.mem_cons_of_mem _ hm3))))
  · rw [hbnd]
    intro m hm
    rw [hget]
    rcases List.mem_append.mp hm with hm1 | hm2
    · exact hInv.fromContainer m (hmemold m (List.mem_append.mpr (Or.inl hm1)))
    · rcases List.mem_cons.mp hm2 with rfl | hm3
      · rw [hfrom]
        exact hInv.fromContainer b₀ hmem
      · exact hInv.fromContainer m
          (hmemold m (List.mem_append.mpr (Or.inr (List.mem_cons_of_mem _ hm3))))
  · rw [hbnd]
    intro m hm
    rw [hget]
    rcases List.mem_append.mp hm with hm1 | hm2
    · exact hInv.toElement m (hmemold m (List.mem_append.mpr (Or.inl hm1)))
    · rcases List.mem_cons.mp hm2 with rfl | hm3
      · rw [hto]
        exact hInv.toElement b₀ hmem
      · exact hInv.toElement m
          (hmemold m (List.mem_append.mpr (Or.inr (List.mem_cons_of_mem _ hm3))))
  · rw [hbnd]
    refine pairwise_replace (hsplit ▸ hInv.pairUnique) ?_ ?_
    · intro x _ hx hf
      rw [hto]
      exact hx (hf.trans hfrom)
    · intro y _ hy hf
      rw [hto]
      exact hy (hfrom.symm.trans hf)
  · rw [hbnd]
    refine pairwise_replace (hsplit ▸ hInv.oneActive) ?_ ?_
    · intro x _ _ _
      exact Or.inr hph
    · intro y _ _ _
      exact Or.inl hph
  · rw [hbnd]
    rcases hkey with hre | hfresh
    · refine pairwise_replace (hsplit ▸ hInv.keysUnique) ?_ ?_
      · intro x _ hx hf
        rw [hre]
        exact hx (hf.trans hfrom)
      · intro y _ hy hf
        rw [hre]
        exact hy (hfrom.symm.trans hf)
    · refine pairwise_replace (hsplit ▸ hInv.keysUnique) ?_ ?_
      · intro x hx _ hf
        exact hfresh x (hmemold x (List.mem_append.mpr (Or.inl hx))) hf
      · intro y hy _ hf
        intro he
        exact hfresh y
          (hmemold y (List.mem_append.mpr (Or.inr (List.mem_cons_of_mem _ hy))))
          hf.symm he.symm
  · intro s hs hstype
    rw [hshapes] at hs
    have hsettled := hInv.settled s hs hstype
    constructor
    · intro hn
      rw [hlen] at hn
      rw [hlen]
      exact hsettled.1 hn
    · intro hn
      rw [hlen] at hn
      exact hsettled.2 hn

/-- Creating a fresh binding from a container to an element with a fresh key
and reflowing, as every creation site of the engine does, preserves the
invariant. -/
theorem createAndReflow_inv (st : EditorState) (bnew : Binding) (hInv : EngineInv st)
    (hid : bnew.id = st.nextBindingId)
    (hcont : ∃ s, getShape st bnew.fromId = some s ∧ s.stype = "container")
    (helem : ∃ s, getShape st bnew.toId = some s ∧ s.stype = "element")
    (hpair : ∀ m ∈ st.bindings, m.fromId = bnew.fromId → m.toId ≠ bnew.toId)
    (hact : bnew.placeholder = true ∨ ∀ m ∈ st.bindings, m.toId ≠ bnew.toId)
    (hkey : ∀ m ∈ st.bindings, m.fromId = bnew.fromId → m.index ≠ bnew.index) :
    EngineInv (updateElementsForContainer (createBindingRecord st bnew) bnew).1 := by
  set stc := createBindingRecord st bnew with hstc
  have hshapes : stc.shapes = st.shapes := rfl
  have hget : ∀ j, getShape stc j = getShape st j := fun j => rfl
  have hbnd : stc.bindings = st.bindings ++ [bnew] := rfl
  have hnext : stc.nextBindingId = st.nextBindingId + 1 := rfl
  have hbf : ∀ i, bindingsFrom stc i =
      bindingsFrom st i ++ (if bnew.fromId = i then [bnew] else []) := by
    intro i
    show bindingsFromList (st.bindings ++ [bnew]) i = _
    rw [bindingsFromList_append]
    congr 1
  have hcoreStc : EngineInvCore stc := by
    refine ⟨?_, ?_, ?_, ?_, ?_, ?_, ?_, ?_⟩
    · rw [hshapes]; exact hInv.shapesNodup
    · rw [hbnd]
      rw [List.map_append, List.nodup_append]
      refine ⟨hInv.bindingsNodup, by simp, ?_⟩
      intro a ha hb
      simp only [List.map_cons, List.map_nil, List.mem_cons, List.not_mem_nil, or_false] at hb
      obtain ⟨m, hm, hmi⟩ := List.mem_map.mp ha
      have := hInv.idsFresh m hm
      rw [hmi, hb, hid] at this
      exact absurd this (lt_irrefl _)
    · rw [hbnd, hnext]
      intro m hm
      rcases List.mem_append.mp hm with hm1 | hm2
      · exact Nat.lt_succ_of_lt (hInv.idsFresh m hm1)
      · simp only [List.mem_singleton] at hm2
        subst hm2
        rw [hid]
        exact Nat.lt_succ_self _
    · rw [hbnd]
      intro m hm
      rw [hget]
      rcases List.mem_append.mp hm with hm1 | hm2
      · exact hInv.fromContainer m hm1
      · simp only [List.mem_singleton] at hm2
        subst hm2
        exact hcont
    · rw [hbnd]
      intro m hm
      rw [hget]
      rcases List.mem_append.mp hm with hm1 | hm2
      · exact hInv.toElement m hm1
      · simp only [List.mem_singleton] at hm2
        subst hm2
        exact helem
    · rw [hbnd]
      rw [List.pairwise_append]
      refine ⟨hInv.pairUnique, by simp, ?_⟩
      intro a ha b hb
      simp only [List.mem_singleton] at hb
      subst hb
      exact hpair a ha
    · rw [hbnd]
      rw [List.pairwise_append]
      refine ⟨hInv.oneActive, by simp, ?_⟩
      intro a ha b hb
      simp only [List.mem_singleton] at hb
      subst hb
      intro hto
      rcases hact with hph | hnone
      · exact Or.inr hph
      · exact absurd hto (hnone a ha)
    · rw [hbnd]
      rw [List.pairwise_append]
      refine ⟨hInv.keysUnique, by simp, ?_⟩
      intro a ha b hb
      simp only [List.mem_singleton] at hb
      subst hb
      exact hkey a ha
  have hcore' := uefc_core stc bnew hcoreStc
  refine ⟨hcore', ?_⟩
  intro s' hs' hstype'
  have hlook : getShape (updateElementsForContainer stc bnew).1 s'.id = some s' :=
    findShape_of_mem hcore'.shapesNodup hs'
  have hbnd' := (uefc_bindings stc bnew).1
  have hbf' : ∀ i, bindingsFrom (updateElementsForContainer stc bnew).1 i = bindingsFrom stc i :=
    fun i => bindingsFrom_congr hbnd' i
  obtain ⟨c₀, hc₀, hc₀t⟩ := hcont
  by_cases hsid : s'.id = bnew.fromId
  · have hcid := container_not_member stc hcoreStc bnew.fromId
    have hemp' : bindingsFrom stc bnew.fromId ≠ [] := by
      rw [hbf]
      simp
    have hcont' := uefc_container stc bnew c₀ ((hget bnew.fromId).trans hc₀) hemp' hcid
    rw [hsid] at hlook
    rw [hcont'] at hlook
    injection hlook with hlook
    constructor
    · intro hn
      rw [hbf', hsid]
      exact ⟨by rw [← hlook], by rw [← hlook]⟩
    · intro hn
      rw [hbf', hsid, hbf] at hn
      simp at hn
  · have hother := uefc_sig_other stc bnew s'.id hsid
    rw [hlook] at hother
    cases h2 : getShape stc s'.id with
    | none => rw [h2] at hother; simp at hother
    | some s₀ =>
      rw [h2] at hother
      simp only [Option.map_some', Option.some.injEq, Prod.mk.injEq] at hother
      obtain ⟨hids, hsty, hwi, hhe⟩ := hother
      have hsettled := hInv.settled s₀ (findShape_mem h2) (hsty ▸ hstype')
      have he1 : bindingsFrom (updateElementsForContainer stc bnew).1 s'.id =
          bindingsFrom st s₀.id := by
        rw [hbf', hbf, if_neg (fun h => hsid h.symm), List.append_nil, hids]
      constructor
      · intro hn
        rw [he1] at hn ⊢
        obtain ⟨hw1, hh1⟩ := hsettled.1 hn
        rw [hwi, hhe]
        exact ⟨hw1, hh1⟩
      · intro hn
        rw [he1] at hn
        obtain ⟨hw1, hh1⟩ := hsettled.2 hn
        rw [hwi, hhe]
        exact ⟨hw1, hh1⟩

/-! ### Deletion machinery -/

theorem removeByIds_eq_filter : ∀ (l : List Binding) (ids : List ℕ),
    removeByIds l ids = l.filter (fun b => decide (b.id ∉ ids)) := by
  intro l ids
  induction l with
  | nil => rfl
  | cons a rest ih =>
    unfold removeByIds
    by_cases h : a.id ∈ ids
    · rw [if_pos h, List.filter_cons, ih]
      simp [h]
    · rw [if_neg h, List.filter_cons, ih]
      simp [h]

theorem bindingsFromList_filter (p : Binding → Bool) :
    ∀ (l : List Binding) (i : ℕ),
      bindingsFromList (l.filter p) i = (bindingsFromList l i).filter p := by
  intro l
  induction l with
  | nil => intro i; rfl
  | cons a rest ih =>
    intro i
    cases hp : p a <;> by_cases h : a.fromId = i <;>
      simp [List.filter_cons, bindingsFromList, hp, h, ih]

theorem bindingsToList_filter (p : Binding → Bool) :
    ∀ (l : List Binding) (i : ℕ),
      bindingsToList (l.filter p) i = (bindingsToList l i).filter p := by
  intro l
  induction l with
  | nil => intro i; rfl
  | cons a rest ih =>
    intro i
    cases hp : p a <;> by_cases h : a.toId = i <;>
      simp [List.filter_cons, bindingsToList, hp, h, ih]

/-- Removing exactly the bindings that point to an element is the filter by
its id, when binding ids are unique. -/
theorem removeBindingsTo_eq (st : EditorState) (eid : ℕ)
    (hnd : (st.bindings.map Binding.id).Nodup) :
    removeByIds st.bindings ((bindingsTo st eid).map Binding.id) =
      st.bindings.filter (fun b => decide (b.toId ≠ eid)) := by
  rw [removeByIds_eq_filter]
  apply List.filter_congr
  intro b hb
  simp only [decide_eq_decide]
  constructor
  · intro hnotin
    intro heq
    exact hnotin (List.mem_map_of_mem Binding.id (mem_bindingsToList.mpr ⟨hb, heq⟩))
  · intro hne hin
    obtain ⟨m, hm, hmi⟩ := List.mem_map.mp hin
    obtain ⟨hmb, hmto⟩ := mem_bindingsToList.mp hm
    have : m = b := nodup_id_inj hnd hmb hb hmi
    exact hne (this ▸ hmto)

theorem pairwise_toId_at_most_one {l : List Binding} {eid : ℕ}
    (hpw : l.Pairwise (fun a b => a.fromId = b.fromId → a.toId ≠ b.toId))
    (hsame : ∀ a ∈ l, ∀ b ∈ l, a.fromId = b.fromId)
    (hall : ∀ m ∈ l, m.toId = eid) : l.length ≤ 1 := by
  cases l with
  | nil => simp
  | cons a rest =>
    cases rest with
    | nil => simp
    | cons b rest2 =>
      exfalso
      have hab := (List.pairwise_cons.mp hpw).1 b (List.mem_cons_self _ _)
      have hfrom := hsame a (List.mem_cons_self _ _) b
        (List.mem_cons_of_mem _ (List.mem_cons_self _ _))
      have ha := hall a (List.mem_cons_self _ _)
      have hb := hall b (List.mem_cons_of_mem _ (List.mem_cons_self _ _))
      exact hab hfrom (ha.trans hb.symm)

/-- Weak settledness during a deletion reaction: every container outside the
pending set is settled, and containers left without members are no wider or
taller than a one-member container. -/
def WeakSettled (st : EditorState) (S : List ℕ) : Prop :=
  ∀ s ∈ st.shapes, s.stype = "container" →
    (s.id ∉ S → ContainerSettled st s) ∧
    ((bindingsFrom st s.id).length = 0 → s.width ≤ 148 ∧ s.height ≤ 148)

/-- Folding the delete reaction over the removed bindings settles every
pending container. -/
theorem fold_onAfterDelete_settles : ∀ (bs : List Binding) (st : EditorState),
    EngineInvCore st → WeakSettled st (bs.map Binding.fromId) →
    EngineInvCore (bs.foldl onAfterDelete st) ∧
      WeakSettled (bs.foldl onAfterDelete st) [] := by
  intro bs
  induction bs with
  | nil =>
    intro st hcore hws
    exact ⟨hcore, hws⟩
  | cons b rest ih =>
    intro st hcore hws
    simp only [List.foldl_cons]
    apply ih
    · exact uefc_core st b hcore
    · -- weak settledness of the intermediate state
      intro s' hs' htype'
      have hdel : onAfterDelete st b = (updateElementsForContainer st b).1 := rfl
      rw [hdel] at hs' ⊢
      have hcore' := uefc_core st b hcore
      have hlook : getShape (updateElementsForContainer st b).1 s'.id = some s' :=
        findShape_of_mem hcore'.shapesNodup hs'
      have hbnd := (uefc_bindings st b).1
      have hbf : ∀ i, bindingsFrom (updateElementsForContainer st b).1 i = bindingsFrom st i :=
        fun i => bindingsFrom_congr hbnd i
      by_cases hsid : s'.id = b.fromId
      · cases hc : getShape st b.fromId with
        | none =>
          exfalso
          have hsame : getShape (updateElementsForContainer st b).1 s'.id =
              getShape st s'.id := by
            rw [uefc_nocontainer hc]
          rw [hsame, hsid, hc] at hlook
          exact Option.noConfusion hlook
        | some c =>
          by_cases hemp : bindingsFrom st b.fromId = []
          · have hidop : (updateElementsForContainer st b).1 = st := by
              rw [uefc_nobindings hc hemp]
            rw [hidop] at hs' hlook ⊢
            have hws' := hws s' hs' htype'
            constructor
            · intro _
              constructor
              · intro hn
                rw [hsid] at hn
                rw [hemp] at hn
                simp at hn
              · intro hn
                exact hws'.2 hn
            · intro hn
              exact hws'.2 hn
          · have hcid := container_not_member st hcore b.fromId
            have hcont := uefc_container st b c hc hemp hcid
            rw [hsid] at hlook
            rw [hcont] at hlook
            injection hlook with hlook
            have hn1 : 1 ≤ (bindingsFrom st b.fromId).length := by
              rcases Nat.eq_zero_or_pos (bindingsFrom st b.fromId).length with h0 | h1
              · rw [List.length_eq_zero] at h0
                exact absurd h0 hemp
              · exact h1
            constructor
            · intro _
              constructor
              · intro hn
                rw [hbf, hsid]
                exact ⟨by rw [← hlook], by rw [← hlook]⟩
              · intro hn
                rw [hbf, hsid] at hn
                omega
            · intro hn
              rw [hbf, hsid] at hn
              omega
      · have hother := uefc_sig_other st b s'.id hsid
        rw [hlook] at hother
        cases h2 : getShape st s'.id with
        | none => rw [h2] at hother; simp at hother
        | some s₀ =>
          rw [h2] at hother
          simp only [Option.map_some', Option.some.injEq, Prod.mk.injEq] at hother
          obtain ⟨hids, hsty, hwi, hhe⟩ := hother
          have hs₀ : s₀ ∈ st.shapes := findShape_mem h2
          have hws₀ := hws s₀ hs₀ (hsty ▸ htype')
          have he1 : bindingsFrom (updateElementsForContainer st b).1 s'.id =
              bindingsFrom st s₀.id := by
            rw [hbf, hids]
          constructor
          · intro hnotin
            have hnotin₀ : s₀.id ∉ b.fromId :: rest.map Binding.fromId := by
              intro hmem
              rcases List.mem_cons.mp hmem with h | h
              · exact hsid (hids.trans h)
              · exact hnotin (hids ▸ h)
            have hset := hws₀.1 (by
              intro hmem
              exact hnotin₀ (by simpa using hmem))
            constructor
            · intro hn
              rw [he1] at hn ⊢
              obtain ⟨hw1, hh1⟩ := hset.1 hn
              rw [hwi, hhe]
              exact ⟨hw1, hh1⟩
            · intro hn
              rw [he1] at hn
              obtain ⟨hw1, hh1⟩ := hws₀.2 hn
              rw [hwi, hhe]
              exact ⟨hw1, hh1⟩
          · intro hn
            rw [he1] at hn
            obtain ⟨hw1, hh1⟩ := hws₀.2 hn
            rw [hwi, hhe]
            exact ⟨hw1, hh1⟩

/-- Deleting every binding that points to an element, with its delete
reactions, preserves the invariant. -/
theorem deleteBindingsTo_inv (st : EditorState) (eid : ℕ) (hInv : EngineInv st) :
    EngineInv (deleteBindingsAndReflow st (bindingsTo st eid)) := by
  unfold deleteBindingsAndReflow
  set st1 : EditorState :=
    { st with bindings := removeByIds st.bindings ((bindingsTo st eid).map Binding.id) }
    with hst1
  have hbnd1 : st1.bindings = st.bindings.filter (fun b => decide (b.toId ≠ eid)) := by
    rw [hst1]
    exact removeBindingsTo_eq st eid hInv.bindingsNodup
  have hshapes1 : st1.shapes = st.shapes := rfl
  have hget1 : ∀ j, getShape st1 j = getShape st j := fun j => rfl
  have hnext1 : st1.nextBindingId = st.nextBindingId := rfl
  have hsub : st1.bindings.Sublist st.bindings := by
    rw [hbnd1]
    exact List.filter_sublist st.bindings
  have hmem1 : ∀ m ∈ st1.bindings, m ∈ st.bindings := fun m hm => hsub.mem hm
  have hbf1 : ∀ i, bindingsFrom st1 i =
      (bindingsFrom st i).filter (fun b => decide (b.toId ≠ eid)) := by
    intro i
    show bindingsFromList st1.bindings i = _
    rw [hbnd1, bindingsFromList_filter]
    rfl
  have hcore1 : EngineInvCore st1 := by
    refine ⟨?_, ?_, ?_, ?_, ?_, ?_, ?_, ?_⟩
    · rw [hshapes1]; exact hInv.shapesNodup
    · exact hInv.bindingsNodup.sublist (hsub.map Binding.id)
    · intro m hm
      rw [hnext1]
      exact hInv.idsFresh m (hmem1 m hm)
    · intro m hm
      rw [hget1]
      exact hInv.fromContainer m (hmem1 m hm)
    · intro m hm
      rw [hget1]
      exact hInv.toElement m (hmem1 m hm)
    · exact hInv.pairUnique.sublist hsub
    · exact hInv.oneActive.sublist hsub
    · exact hInv.keysUnique.sublist hsub
  have hws1 : WeakSettled st1 ((bindingsTo st eid).map Binding.fromId) := by
    intro s hs htype
    rw [hshapes1] at hs
    have hsettled := hInv.settled s hs htype
    constructor
    · intro hnotin
      have hnone : ∀ m ∈ bindingsFrom st s.id, m.toId ≠ eid := by
        intro m hm hmeq
        apply hnotin
        have hmb : m ∈ st.bindings := (mem_bindingsFromList.mp hm).1
        have hmfrom : m.fromId = s.id := (mem_bindingsFromList.mp hm).2
        have : m ∈ bindingsTo st eid := mem_bindingsToList.mpr ⟨hmb, hmeq⟩
        rw [← hmfrom]
        exact List.mem_map_of_mem Binding.fromId this
      have heq : bindingsFrom st1 s.id = bindingsFrom st s.id := by
        rw [hbf1]
        apply List.filter_eq_self.mpr
        intro a ha
        simp only [decide_eq_true_eq]
        exact hnone a ha
      constructor
      · intro hn
        rw [heq] at hn ⊢
        exact hsettled.1 hn
      · intro hn
        rw [heq] at hn
        exact hsettled.2 hn
    · intro hn
      rcases Nat.eq_zero_or_pos (bindingsFrom st s.id).length with h0 | h1
      · exact hsettled.2 h0
      · have hall : ∀ m ∈ bindingsFrom st s.id, m.toId = eid := by
          rw [hbf1] at hn
          rw [List.length_eq_zero] at hn
          intro m hm
          have := List.filter_eq_nil_iff.mp hn m hm
          simp only [decide_eq_true_eq] at this
          push_neg at this
          exact this
        have hpw : (bindingsFrom st s.id).Pairwise
            (fun a b => a.fromId = b.fromId → a.toId ≠ b.toId) :=
          hInv.pairUnique.sublist (bindingsFromList_sublist st.bindings s.id)
        have hsame : ∀ a ∈ bindingsFrom st s.id, ∀ b ∈ bindingsFrom st s.id,
            a.fromId = b.fromId := by
          intro a ha b hb
          rw [(mem_bindingsFromList.mp ha).2, (mem_bindingsFromList.mp hb).2]
        have hle1 := pairwise_toId_at_most_one hpw hsame hall
        have hn1 : (bindingsFrom st s.id).length = 1 := by omega
        obtain ⟨hw1, hh1⟩ := hsettled.1 (by omega)
        rw [hn1] at hw1
        constructor
        · rw [hw1]
          unfold rowWidth
          norm_num
        · rw [hh1]
  obtain ⟨hcoreF, hwsF⟩ := fold_onAfterDelete_settles (bindingsTo st eid) st1 hcore1 hws1
  refine ⟨hcoreF, ?_⟩
  intro s hs htype
  exact (hwsF s hs htype).1 (by simp)

/-! ### Shape movement and target resolution -/

theorem updateShapePos_idstype (st : EditorState) (i : ℕ) (px py : ℚ) (j : ℕ) :
    (getShape (updateShapePos st i px py) j).map (fun s => (s.id, s.stype)) =
      (getShape st j).map (fun s => (s.id, s.stype)) := by
  rw [getShape_updateShapePos]
  cases h : getShape st j with
  | none => rfl
  | some s => by_cases hs : s.id = i <;> simp [hs]

/-- Moving a shape preserves the invariant: only a position changes. -/
theorem moveShape_inv (st : EditorState) (i : ℕ) (px py : ℚ) (hInv : EngineInv st) :
    EngineInv (moveShape st i px py) := by
  have hbnd : (moveShape st i px py).bindings = st.bindings := rfl
  have hnext : (moveShape st i px py).nextBindingId = st.nextBindingId := rfl
  refine ⟨⟨?_, ?_, ?_, ?_, ?_, ?_, ?_, ?_⟩, ?_⟩
  · show ((updateShapePos st i px py).shapes.map Shape.id).Nodup
    rw [updateShapePos_ids]
    exact hInv.shapesNodup
  · rw [hbnd]; exact hInv.bindingsNodup
  · rw [hbnd, hnext]; exact hInv.idsFresh
  · rw [hbnd]
    intro m hm
    obtain ⟨s, hs, hst⟩ := hInv.fromContainer m hm
    obtain ⟨s', hs', _, hst'⟩ :=
      exists_shape_of_idstype (updateShapePos_idstype st i px py) hs
    exact ⟨s', hs', hst'.trans hst⟩
  · rw [hbnd]
    intro m hm
    obtain ⟨s, hs, hst⟩ := hInv.toElement m hm
    obtain ⟨s', hs', _, hst'⟩ :=
      exists_shape_of_idstype (updateShapePos_idstype st i px py) hs
    exact ⟨s', hs', hst'.trans hst⟩
  · rw [hbnd]; exact hInv.pairUnique
  · rw [hbnd]; exact hInv.oneActive
  · rw [hbnd]; exact hInv.keysUnique
  · intro s' hs' htype'
    show (1 ≤ (bindingsFrom (moveShape st i px py) s'.id).length → _) ∧ _
    have hbfm : ∀ j, bindingsFrom (moveShape st i px py) j = bindingsFrom st j :=
      fun j => bindingsFrom_congr hbnd j
    obtain ⟨s₀, hs₀, hf⟩ := List.mem_map.mp hs'
    have hsid : s'.id = s₀.id := by
      rw [← hf]
      by_cases h : s₀.id = i <;> simp [h]
    have hwidth : s'.width = s₀.width ∧ s'.height = s₀.height := by
      rw [← hf]
      by_cases h : s₀.id = i <;> simp [h]
    have htype₀ : s₀.stype = s'.stype := by
      rw [← hf]
      by_cases h : s₀.id = i <;> simp [h]
    have hsettled := hInv.settled s₀ hs₀ (htype₀.trans htype')
    constructor
    · intro hn
      rw [hbfm, hsid] at hn ⊢
      obtain ⟨hw1, hh1⟩ := hsettled.1 hn
      rw [hwidth.1, hwidth.2]
      exact ⟨hw1, hh1⟩
    · intro hn
      rw [hbfm, hsid] at hn
      obtain ⟨hw1, hh1⟩ := hsettled.2 hn
      rw [hwidth.1, hwidth.2]
      exact ⟨hw1, hh1⟩

/-- What a hit-test match satisfies: it is in the list, it can bind the
element, and it contains the point. -/
theorem topShapeAt_spec : ∀ {l : List Shape} {e : Shape} {px py : ℚ} {c : Shape},
    topShapeAt l e px py = some c → c ∈ l ∧ canBindShapes c e ∧ containsPoint c px py := by
  intro l
  induction l with
  | nil => intro e px py c h; exact absurd h (by simp [topShapeAt])
  | cons s rest ih =>
    intro e px py c h
    unfold topShapeAt at h
    cases htop : topShapeAt rest e px py with
    | some r =>
      rw [htop] at h
      cases h
      obtain ⟨hm, hcb, hcp⟩ := ih htop
      exact ⟨List.mem_cons_of_mem _ hm, hcb, hcp⟩
    | none =>
      rw [htop] at h
      by_cases hcond : canBindShapes s e ∧ containsPoint s px py
      · rw [if_pos hcond] at h
        cases h
        exact ⟨List.mem_cons_self _ _, hcond.1, hcond.2⟩
      · rw [if_neg hcond] at h
        exact absurd h (by simp)

/-- What a resolved drop target satisfies. -/
theorem getTargetContainer_spec {st : EditorState} {e : Shape} {px py : ℚ} {c : Shape}
    (h : getTargetContainer st e px py = some c) :
    c ∈ st.shapes ∧ canBindShapes c e ∧ containsPoint c px py :=
  topShapeAt_spec h

/-- A resolved target of an element-type shape is a container-type shape. -/
theorem target_is_container {st : EditorState} {e : Shape} {px py : ℚ} {c : Shape}
    (h : getTargetContainer st e px py = some c) (he : e.stype = "element") :
    c.stype = "container" := by
  obtain ⟨-, hcb, -⟩ := getTargetContainer_spec h
  have h2 := hcb.2
  rw [he] at h2
  simp [shapeUtilCanBind, ElementShapeUtil_canBind, ContainerShapeUtil_canBind] at h2
  exact h2

theorem pairwise_forall_ne {R : Binding → Binding → Prop}
    (hsymm : ∀ a b, R a b → R b a) :
    ∀ {l : List Binding}, l.Pairwise R → ∀ {a b}, a ∈ l → b ∈ l → a ≠ b → R a b := by
  intro l
  induction l with
  | nil => intro _ a b ha; simp at ha
  | cons x rest ih =>
    intro hpw a b ha hb hne
    rcases List.pairwise_cons.mp hpw with ⟨hx, hrest⟩
    rcases List.mem_cons.mp ha with rfl | ha'
    · rcases List.mem_cons.mp hb with rfl | hb'
      · exact absurd rfl hne
      · exact hx b hb'
    · rcases List.mem_cons.mp hb with rfl | hb'
      · exact hsymm _ _ (hx a ha')
      · exact ih hrest ha' hb' hne

/-- Within one container, two bindings to the same element coincide. -/
theorem own_unique {st : EditorState} (hInv : EngineInvCore st) {cid eid : ℕ} {a b : Binding}
    (ha : a ∈ bindingsFrom st cid) (hb : b ∈ bindingsFrom st cid)
    (hta : a.toId = eid) (htb : b.toId = eid) : a = b := by
  by_contra hne
  have hpw : (bindingsFrom st cid).Pairwise
      (fun a b => a.fromId = b.fromId → a.toId ≠ b.toId) :=
    hInv.pairUnique.sublist (bindingsFromList_sublist st.bindings cid)
  have hsymm : ∀ (a b : Binding), (a.fromId = b.fromId → a.toId ≠ b.toId) →
      (b.fromId = a.fromId → b.toId ≠ a.toId) := by
    intro a b h hf ht
    exact h hf.symm ht.symm
  have hr := pairwise_forall_ne hsymm hpw ha hb hne
  have hfrom : a.fromId = b.fromId :=
    (mem_bindingsFromList.mp ha).2.trans (mem_bindingsFromList.mp hb).2.symm
  exact hr hfrom (hta.trans htb.symm)

/-- Within one container, two distinct bindings carry distinct keys. -/
theorem keys_distinct {st : EditorState} (hInv : EngineInvCore st) {cid : ℕ} {a b : Binding}
    (ha : a ∈ bindingsFrom st cid) (hb : b ∈ bindingsFrom st cid)
    (hne : a ≠ b) : a.index ≠ b.index := by
  have hpw : (bindingsFrom st cid).Pairwise
      (fun a b => a.fromId = b.fromId → a.index ≠ b.index) :=
    hInv.keysUnique.sublist (bindingsFromList_sublist st.bindings cid)
  have hsymm : ∀ (a b : Binding), (a.fromId = b.fromId → a.index ≠ b.index) →
      (b.fromId = a.fromId → b.index ≠ a.index) := by
    intro a b h hf ht
    exact h hf.symm ht.symm
  have hfrom : a.fromId = b.fromId :=
    (mem_bindingsFromList.mp ha).2.trans (mem_bindingsFromList.mp hb).2.symm
  exact pairwise_forall_ne hsymm hpw ha hb hne hfrom

theorem fold_onAfterDelete_idstype : ∀ (bs : List Binding) (st : EditorState) (j : ℕ),
    (getShape (bs.foldl onAfterDelete st) j).map (fun s => (s.id, s.stype)) =
      (getShape st j).map (fun s => (s.id, s.stype)) := by
  intro bs
  induction bs with
  | nil => intro st j; rfl
  | cons b rest ih =>
    intro st j
    simp only [List.foldl_cons]
    rw [ih]
    exact uefc_idstype st b j

theorem fold_onAfterDelete_bindings : ∀ (bs : List Binding) (st : EditorState),
    (bs.foldl onAfterDelete st).bindings = st.bindings ∧
      (bs.foldl onAfterDelete st).nextBindingId = st.nextBindingId := by
  intro bs
  induction bs with
  | nil => intro st; exact ⟨rfl, rfl⟩
  | cons b rest ih =>
    intro st
    simp only [List.foldl_cons]
    obtain ⟨h1, h2⟩ := ih (onAfterDelete st b)
    obtain ⟨h3, h4⟩ := uefc_bindings st b
    exact ⟨h1.trans h3, h2.trans h4⟩

theorem deleteBindingsAndReflow_bindings (st : EditorState) (bs : List Binding) :
    (deleteBindingsAndReflow st bs).bindings = removeByIds st.bindings (bs.map Binding.id) ∧
      (deleteBindingsAndReflow st bs).nextBindingId = st.nextBindingId := by
  unfold deleteBindingsAndReflow
  exact fold_onAfterDelete_bindings bs _

theorem deleteBindingsAndReflow_idstype (st : EditorState) (bs : List Binding) (j : ℕ) :
    (getShape (deleteBindingsAndReflow st bs) j).map (fun s => (s.id, s.stype)) =
      (getShape st j).map (fun s => (s.id, s.stype)) := by
  unfold deleteBindingsAndReflow
  rw [fold_onAfterDelete_idstype]
  rfl

/-- Marking a batch of distinct existing bindings as placeholders, with the
change reaction after each write, preserves the invariant. -/
theorem fold_markPlaceholders_inv : ∀ (items : List Binding) (s : EditorState),
    EngineInv s → (items.map Binding.id).Nodup →
    (∀ b ∈ items, b.placeholder = true ∧ ∃ b₀ ∈ s.bindings, b₀.id = b.id ∧
      b₀.fromId = b.fromId ∧ b₀.toId = b.toId ∧ b₀.index = b.index) →
    EngineInv (items.foldl (fun s b => onAfterChange (updateBindingRecord s b) b) s) := by
  intro items
  induction items with
  | nil => intro s hInv _ _; exact hInv
  | cons b rest ih =>
    intro s hInv hnd hprop
    simp only [List.map_cons, List.nodup_cons] at hnd
    obtain ⟨hbid, hndrest⟩ := hnd
    obtain ⟨hph, b₀, hb₀, hid, hfrom, hto, hidx⟩ := hprop b (List.mem_cons_self _ _)
    simp only [List.foldl_cons]
    have hInv1 : EngineInv (updateBindingRecord s b) :=
      updateBindingRecord_inv s b b₀ hInv hb₀ hid.symm hfrom.symm hto.symm hph
        (Or.inl hidx.symm)
    have hInv2 : EngineInv (onAfterChange (updateBindingRecord s b) b) :=
      uefc_inv (updateBindingRecord s b) b hInv1
    apply ih _ hInv2 hndrest
    intro b' hb'
    obtain ⟨hph', b₀', hb₀', hid', hfrom', hto', hidx'⟩ :=
      hprop b' (List.mem_cons_of_mem _ hb')
    refine ⟨hph', b₀', ?_, hid', hfrom', hto', hidx'⟩
    have hne : ¬ b₀'.id = b.id := by
      intro h
      apply hbid
      have hbb : b.id = b'.id := h.symm.trans hid'
      rw [hbb]
      exact List.mem_map_of_mem Binding.id hb'
    have hbnd2 : (onAfterChange (updateBindingRecord s b) b).bindings =
        (updateBindingRecord s b).bindings := (uefc_bindings _ _).1
    rw [hbnd2]
    show b₀' ∈ s.bindings.map (fun a => if a.id = b.id then b else a)
    have heq : (fun a => if a.id = b.id then b else a) b₀' = b₀' := if_neg hne
    rw [← heq]
    exact List.mem_map_of_mem _ hb₀'

/-- Claim support: onTranslateStart preserves the invariant. -/
theorem onTranslateStart_inv (st : EditorState) (eid : ℕ) (hInv : EngineInv st) :
    EngineInv (onTranslateStart st eid) := by
  unfold onTranslateStart
  apply fold_markPlaceholders_inv _ _ hInv
  · have : ((bindingsTo st eid).map (fun b => { b with placeholder := true })).map Binding.id =
        (bindingsTo st eid).map Binding.id := by
      simp
    rw [this]
    exact hInv.bindingsNodup.sublist ((bindingsToList_sublist st.bindings eid).map Binding.id)
  · intro b hb
    obtain ⟨m, hm, hf⟩ := List.mem_map.mp hb
    refine ⟨by rw [← hf], m, (mem_bindingsToList.mp hm).1, ?_, ?_, ?_, ?_⟩ <;> rw [← hf]

/-- Claim support: the drag-move handler body preserves the invariant. -/
theorem onTranslateBody_inv (st : EditorState) (eid : ℕ) (hInv : EngineInv st)
    (hel : IsElementShape st eid) : EngineInv (onTranslateBody st eid) := by
  obtain ⟨e, hge, hetype⟩ := hel
  unfold onTranslateBody
  rw [hge]
  dsimp only
  cases htc : getTargetContainer st e (elementAnchor e).1 (elementAnchor e).2 with
  | none => exact deleteBindingsTo_inv st eid hInv
  | some c =>
    dsimp only
    have heid : e.id = eid := findShape_id hge
    obtain ⟨hcmem, hcb, hcp⟩ := getTargetContainer_spec htc
    have hctype : c.stype = "container" := target_is_container htc hetype
    have hstrict := sortBindings_bindingsFrom_strict st c.id hInv.keysUnique
    have hgeom : (∀ m ∈ bindingsFrom st c.id, m.toId ≠ e.id) →
        1 ≤ (bindingsFrom st c.id).length →
        (elementAnchor e).1 ≤ c.x + c.width ∧
          c.width = rowWidth (bindingsFrom st c.id).length := by
      intro _ hn
      exact ⟨hcp.2.1, ((hInv.settled c hcmem hctype).1 hn).1⟩
    have hfresh := freshKey st e c (elementAnchor e).1 hstrict hgeom
    cases hex : (bindingsFrom st c.id).find? (fun b => decide (b.toId = eid)) with
    | some ex =>
      dsimp only
      by_cases hexi : ex.index = getBindingIndexForPosition st e c (elementAnchor e).1
      · rw [if_pos hexi]; exact hInv
      · rw [if_neg hexi]
        have hexmem : ex ∈ bindingsFrom st c.id := List.mem_of_find?_eq_some hex
        have hexto : ex.toId = eid := by
          have := List.find?_some hex
          simpa using this
        have hexbnd : ex ∈ st.bindings := (mem_bindingsFromList.mp hexmem).1
        have hexfrom : ex.fromId = c.id := (mem_bindingsFromList.mp hexmem).2
        have hkey : ∀ m ∈ st.bindings, m.fromId = c.id →
            m.index ≠ getBindingIndexForPosition st e c (elementAnchor e).1 := by
          rcases hfresh with ⟨own, hown, howne, howni⟩ | hfr
          · exfalso
            have hownf : own ∈ bindingsFrom st c.id := (sortBindings_perm _).mem_iff.mp hown
            have hoe : own = ex :=
              own_unique hInv.toEngineInvCore hownf hexmem (heid ▸ howne) hexto
            rw [hoe] at howni
            exact hexi howni.symm
          · intro m hm hmf
            have hmbf : m ∈ bindingsFrom st c.id := mem_bindingsFromList.mpr ⟨hm, hmf⟩
            exact hfr m ((sortBindings_perm _).mem_iff.mpr hmbf)
        refine uefc_inv _ _ (updateBindingRecord_inv st _ ex hInv hexbnd rfl rfl rfl rfl
          (Or.inr ?_))
        intro m hm hmf
        exact hkey m hm (hmf.trans hexfrom)
    | none =>
      dsimp only
      have hnone : ∀ m ∈ bindingsFrom st c.id, ¬ m.toId = eid := by
        intro m hm
        have := List.find?_eq_none.mp hex m hm
        simpa using this
      have hclook : getShape st c.id = some c := findShape_of_mem hInv.shapesNodup hcmem
      have hkey : ∀ m ∈ st.bindings, m.fromId = c.id →
          m.index ≠ getBindingIndexForPosition st e c (elementAnchor e).1 := by
        rcases hfresh with ⟨own, hown, howne, -⟩ | hfr
        · exfalso
          have hownf : own ∈ bindingsFrom st c.id := (sortBindings_perm _).mem_iff.mp hown
          exact hnone own hownf (heid ▸ howne)
        · intro m hm hmf
          have hmbf : m ∈ bindingsFrom st c.id := mem_bindingsFromList.mpr ⟨hm, hmf⟩
          exact hfr m ((sortBindings_perm _).mem_iff.mpr hmbf)
      refine createAndReflow_inv st _ hInv rfl ⟨c, hclook, hctype⟩ ⟨e, hge, hetype⟩ ?_
        (Or.inl rfl) ?_
      · intro m hm hmf hmto
        exact hnone m (mem_bindingsFromList.mpr ⟨hm, hmf⟩) hmto
      · intro m hm hmf
        exact hkey m hm hmf

/-- Claim support: a full drag-move update preserves the invariant. -/
theorem translateMove_inv (st : EditorState) (eid : ℕ) (px py : ℚ) (hInv : EngineInv st)
    (hel : IsElementShape st eid) : EngineInv (translateMove st eid px py) := by
  unfold translateMove
  have hInv1 : EngineInv (moveShape st eid px py) := moveShape_inv st eid px py hInv
  apply onTranslateBody_inv _ _ hInv1
  obtain ⟨e, hge, hetype⟩ := hel
  obtain ⟨e', hge', -, hty'⟩ :=
    exists_shape_of_idstype (updateShapePos_idstype st eid px py) hge
  exact ⟨e', hge', hty'.trans hetype⟩

/-- Claim support: the drag-end handler body preserves the invariant. -/
theorem onTranslateEndBody_inv (st : EditorState) (eid : ℕ) (hInv : EngineInv st)
    (hel : IsElementShape st eid) : EngineInv (onTranslateEndBody st eid) := by
  obtain ⟨e, hge, hetype⟩ := hel
  unfold onTranslateEndBody
  rw [hge]
  dsimp only
  cases htc : getTargetContainer st e (elementAnchor e).1 (elementAnchor e).2 with
  | none => exact hInv
  | some c =>
    dsimp only
    have heid : e.id = eid := findShape_id hge
    obtain ⟨hcmem, hcb, hcp⟩ := getTargetContainer_spec htc
    have hctype : c.stype = "container" := target_is_container htc hetype
    have hstrict := sortBindings_bindingsFrom_strict st c.id hInv.keysUnique
    have hgeom : (∀ m ∈ bindingsFrom st c.id, m.toId ≠ e.id) →
        1 ≤ (bindingsFrom st c.id).length →
        (elementAnchor e).1 ≤ c.x + c.width ∧
          c.width = rowWidth (bindingsFrom st c.id).length := by
      intro _ hn
      exact ⟨hcp.2.1, ((hInv.settled c hcmem hctype).1 hn).1⟩
    have hfresh := freshKey st e c (elementAnchor e).1 hstrict hgeom
    have hInv1 : EngineInv (deleteBindingsAndReflow st (bindingsTo st eid)) :=
      deleteBindingsTo_inv st eid hInv
    set st1 := deleteBindingsAndReflow st (bindingsTo st eid) with hst1
    have hbnd1 : st1.bindings = st.bindings.filter (fun b => decide (b.toId ≠ eid)) := by
      rw [hst1, (deleteBindingsAndReflow_bindings st _).1]
      exact removeBindingsTo_eq st eid hInv.bindingsNodup
    have hmem1 : ∀ m ∈ st1.bindings, m ∈ st.bindings ∧ m.toId ≠ eid := by
      intro m hm
      rw [hbnd1] at hm
      have := List.mem_filter.mp hm
      exact ⟨this.1, by simpa using this.2⟩
    have hidst := deleteBindingsAndReflow_idstype st (bindingsTo st eid)
    obtain ⟨c', hclook', -, hcty'⟩ :=
      exists_shape_of_idstype hidst (findShape_of_mem hInv.shapesNodup hcmem)
    obtain ⟨e', helook', -, hety'⟩ := exists_shape_of_idstype hidst hge
    have hkey : ∀ m ∈ st1.bindings, m.fromId = c.id →
        m.index ≠ getBindingIndexForPosition st e c (elementAnchor e).1 := by
      intro m hm hmf
      obtain ⟨hmst, hmto⟩ := hmem1 m hm
      have hmbf : m ∈ bindingsFrom st c.id := mem_bindingsFromList.mpr ⟨hmst, hmf⟩
      rcases hfresh with ⟨own, hown, howne, howni⟩ | hfr
      · have hownf : own ∈ bindingsFrom st c.id := (sortBindings_perm _).mem_iff.mp hown
        have hmne : m ≠ own := by
          intro h
          rw [h] at hmto
          exact hmto (heid ▸ howne)
        rw [howni]
        exact keys_distinct hInv.toEngineInvCore hmbf hownf hmne
      · exact hfr m ((sortBindings_perm _).mem_iff.mpr hmbf)
    refine createAndReflow_inv st1 _ hInv1 rfl ⟨c', hclook', hcty'.trans hctype⟩
      ⟨e', helook', hety'.trans hetype⟩ ?_ (Or.inr ?_) ?_
    · intro m hm hmf hmto
      exact (hmem1 m hm).2 hmto
    · intro m hm
      exact (hmem1 m hm).2
    · intro m hm hmf
      exact hkey m hm hmf

theorem fold_onAfterChangeFromShape_inv : ∀ (bs : List Binding) (s : EditorState),
    EngineInv s → EngineInv (bs.foldl onAfterChangeFromShape s) := by
  intro bs
  induction bs with
  | nil => intro s h; exact h
  | cons b rest ih =>
    intro s h
    simp only [List.foldl_cons]
    exact ih _ (uefc_inv s b h)

/-- Claim support: the reactions to an external shape change preserve the
invariant. -/
theorem shapeChangedReactions_inv (st : EditorState) (sid : ℕ) (hInv : EngineInv st) :
    EngineInv (shapeChangedReactions st sid) :=
  fold_onAfterChangeFromShape_inv _ _ hInv

/-- Every interaction step of the core preserves the engine invariant. -/
theorem dragStep_inv {st st' : EditorState} (h : DragStep st st') (hInv : EngineInv st) :
    EngineInv st' := by
  cases h with
  | start eid hel => exact onTranslateStart_inv st eid hInv
  | move eid px py hel => exact translateMove_inv st eid px py hInv hel
  | finish eid hel => exact onTranslateEndBody_inv st eid hInv hel
  | reflow b hb => exact uefc_inv st b hInv
  | shapeChanged sid => exact shapeChangedReactions_inv st sid hInv

/-- The engine invariant holds in every state reachable from an invariant
state. -/
theorem reachable_inv {st₀ st : EditorState} (h : Reachable st₀ st)
    (hInv : EngineInv st₀) : EngineInv st := by
  induction h with
  | refl => exact hInv
  | tail hr hs ih => exact dragStep_inv hs ih

/-- The reflow loop never writes the triggering element's shape while the
trigger is a placeholder: every member carrying it is skipped and every
other write goes to a different shape id. -/
theorem reflowLoop_frame_self (cid j : ℕ) :
    ∀ (L : List Binding) (i : ℕ) (st : EditorState) (w : Bool),
      getShape (reflowLoop cid j true L i st w).1 j = getShape st j := by
  intro L
  induction L with
  | nil => intro i st w; simp [reflowLoop]
  | cons b rest ih =>
    intro i st w
    unfold reflowLoop
    by_cases hb : j = b.toId
    · rw [if_pos ⟨hb, rfl⟩]
      exact ih _ _ _
    · rw [if_neg (fun h => hb h.1)]
      cases hs : getShape st b.toId with
      | none => exact ih _ _ _
      | some s =>
        cases hc : getShape st cid with
        | none => exact ih _ _ _
        | some c =>
          dsimp only
          by_cases hw : s.x ≠ c.x + (CONTAINER_PADDING + (i : ℚ) * (100 + CONTAINER_PADDING)) ∨
              s.y ≠ c.y + CONTAINER_PADDING
          · rw [if_pos hw, ih _ _ _]
            exact getShape_updateShapePos_ne _ _ _ hb
          · rw [if_neg hw]
            exact ih _ _ _

/-- A reflow triggered by a placeholder binding to an element distinct from
its container leaves the element's shape record untouched. -/
theorem uefc_self_element (st : EditorState) (b : Binding) (hph : b.placeholder = true)
    (hne : b.toId ≠ b.fromId) :
    getShape (updateElementsForContainer st b).1 b.toId = getShape st b.toId := by
  unfold updateElementsForContainer
  cases hc : getShape st b.fromId with
  | none => rfl
  | some container =>
    dsimp only
    have hid : container.id = b.fromId := findShape_id hc
    rw [hid]
    by_cases hlen : (sortBindings (bindingsFrom st b.fromId)).length = 0
    · rw [if_pos hlen]
    · rw [if_neg hlen]
      have hframe : getShape (reflowLoop b.fromId b.toId b.placeholder
          (sortBindings (bindingsFrom st b.fromId)) 0 st false).1 b.toId =
          getShape st b.toId := by
        rw [hph]
        exact reflowLoop_frame_self b.fromId b.toId _ 0 st false
      by_cases hw : CONTAINER_PADDING + (((sortBindings (bindingsFrom st b.fromId)).length : ℚ) *
            100 + (((sortBindings (bindingsFrom st b.fromId)).length : ℚ) - 1) *
            CONTAINER_PADDING) + CONTAINER_PADDING ≠ container.width ∨
          CONTAINER_PADDING + 100 + CONTAINER_PADDING ≠ container.height
      · rw [if_pos hw]
        rw [getShape_updateShapeSize_ne _ _ _ hne]
        exact hframe
      · rw [if_neg hw]
        exact hframe

/-- A container is never its own member, given from-container and to-element
type facts for the state. -/
theorem container_not_member_of (st : EditorState)
    (hfc : ∀ b ∈ st.bindings, ∃ s, getShape st b.fromId = some s ∧ s.stype = "container")
    (hte : ∀ b ∈ st.bindings, ∃ s, getShape st b.toId = some s ∧ s.stype = "element")
    (i : ℕ) : i ∉ (sortBindings (bindingsFrom st i)).map Binding.toId := by
  intro hmem
  obtain ⟨m, hm, hmi⟩ := List.mem_map.mp hmem
  have hm' : m ∈ bindingsFrom st i := (sortBindings_perm _).mem_iff.mp hm
  obtain ⟨hmb, hmfrom⟩ := mem_bindingsFromList.mp hm'
  obtain ⟨se, hse, hsee⟩ := hte m hmb
  obtain ⟨sc, hsc, hscc⟩ := hfc m hmb
  rw [hmfrom] at hsc
  rw [hmi] at hse
  rw [hse] at hsc
  cases hsc
  rw [hsee] at hscc
  simp at hscc

/-- Filtering away the bindings to an element leaves no binding to it. -/
theorem bindingsToList_filter_self (l : List Binding) (eid : ℕ) :
    bindingsToList (l.filter (fun b => decide (b.toId ≠ eid))) eid = [] := by
  rw [bindingsToList_filter]
  rw [List.filter_eq_nil_iff]
  intro m hm
  have := (mem_bindingsToList.mp hm).2
  simp [this]

/-- After deleting every binding to an element (with the delete reactions),
the element has no bindings. -/
theorem bindingsTo_after_delete (st : EditorState) (eid : ℕ)
    (hnd : (st.bindings.map Binding.id).Nodup) :
    bindingsTo (deleteBindingsAndReflow st (bindingsTo st eid)) eid = [] := by
  show bindingsToList (deleteBindingsAndReflow st (bindingsTo st eid)).bindings eid = []
  rw [(deleteBindingsAndReflow_bindings st _).1, removeBindingsTo_eq st eid hnd]
  exact bindingsToList_filter_self st.bindings eid

/-- The topmost-shape query succeeds whenever some shape of the store
matches the filter and contains the point. -/
theorem topShapeAt_isSome : ∀ {l : List Shape} {e : Shape} {px py : ℚ} {s : Shape},
    s ∈ l → canBindShapes s e → containsPoint s px py →
    ∃ t, topShapeAt l e px py = some t := by
  intro l
  induction l with
  | nil => intro e px py s hs _ _; simp at hs
  | cons a rest ih =>
    intro e px py s hs hcb hcp
    cases hr : topShapeAt rest e px py with
    | some r =>
      refine ⟨r, ?_⟩
      show topShapeAt (a :: rest) e px py = some r
      unfold topShapeAt
      rw [hr]
    | none =>
      rcases List.mem_cons.mp hs with rfl | hs'
      · refine ⟨s, ?_⟩
        show topShapeAt (s :: rest) e px py = some s
        unfold topShapeAt
        rw [hr]
        dsimp only
        rw [if_pos ⟨hcb, hcp⟩]
      · obtain ⟨t, ht⟩ := ih hs' hcb hcp
        exact absurd (ht.symm.trans hr) (by simp)

theorem rowWidth_mono {m n : ℕ} (h : m ≤ n) : rowWidth m ≤ rowWidth n := by
  unfold rowWidth
  have hc : (m : ℚ) ≤ (n : ℚ) := by exact_mod_cast h
  linarith

theorem rowWidth_one : rowWidth 1 = 148 := by
  norm_num [rowWidth]

/-- A settled container is never wider than the row formula of any member
count at least one and at least its own, and never taller than 148. -/
theorem settled_bounds {st : EditorState} {s : Shape} (h : ContainerSettled st s)
    {n' : ℕ} (hle : (bindingsFrom st s.id).length ≤ n') (h1 : 1 ≤ n') :
    s.width ≤ rowWidth n' ∧ s.height ≤ 148 := by
  by_cases h0 : (bindingsFrom st s.id).length = 0
  · obtain ⟨hw, hh⟩ := h.2 h0
    exact ⟨le_trans hw (le_trans (le_of_eq rowWidth_one.symm) (rowWidth_mono h1)), hh⟩
  · obtain ⟨hw, hh⟩ := h.1 (by omega)
    exact ⟨hw ▸ rowWidth_mono hle, le_of_eq hh⟩

/-- The id and type tag of every shape survive the drag-move handler body. -/
theorem onTranslateBody_idstype (st : EditorState) (eid : ℕ) (j : ℕ) :
    (getShape (onTranslateBody st eid) j).map (fun s => (s.id, s.stype)) =
      (getShape st j).map (fun s => (s.id, s.stype)) := by
  unfold onTranslateBody
  cases hge : getShape st eid with
  | none => rfl
  | some e =>
    dsimp only
    cases htc : getTargetContainer st e (elementAnchor e).1 (elementAnchor e).2 with
    | none => exact deleteBindingsAndReflow_idstype st _ j
    | some c =>
      dsimp only
      cases hex : (bindingsFrom st c.id).find? (fun b => decide (b.toId = eid)) with
      | some ex =>
        dsimp only
        by_cases hexi : ex.index = getBindingIndexForPosition st e c (elementAnchor e).1
        · rw [if_pos hexi]
        · rw [if_neg hexi]
          exact uefc_idstype _ _ j
      | none =>
        dsimp only
        exact uefc_idstype _ _ j

theorem translateMove_idstype (st : EditorState) (eid : ℕ) (px py : ℚ) (j : ℕ) :
    (getShape (translateMove st eid px py) j).map (fun s => (s.id, s.stype)) =
      (getShape st j).map (fun s => (s.id, s.stype)) := by
  unfold translateMove
  exact (onTranslateBody_idstype _ _ j).trans (updateShapePos_idstype st eid px py j)

theorem translateMove_elem (st : EditorState) (eid : ℕ) (px py : ℚ)
    (hel : IsElementShape st eid) : IsElementShape (translateMove st eid px py) eid := by
  obtain ⟨e, hge, hety⟩ := hel
  obtain ⟨e', hge', -, hty'⟩ :=
    exists_shape_of_idstype (translateMove_idstype st eid px py) hge
  exact ⟨e', hge', hty'.trans hety⟩

/-- After a drag-move handler body under the invariant, the dragged element
either has no bindings left (the no-target branch deleted them) or still
resolves a drop target at its unchanged anchor. -/
theorem body_none_or_target (st : EditorState) (eid : ℕ) (hInv : EngineInv st)
    (hel : IsElementShape st eid) :
    bindingsTo (onTranslateBody st eid) eid = [] ∨
      ∃ t, resolveTargetOf (onTranslateBody st eid) eid = some t := by
  obtain ⟨e, hge, hetype⟩ := hel
  have heid : e.id = eid := findShape_id hge
  unfold onTranslateBody
  rw [hge]
  dsimp only
  cases htc : getTargetContainer st e (elementAnchor e).1 (elementAnchor e).2 with
  | none =>
    left
    exact bindingsTo_after_delete st eid hInv.bindingsNodup
  | some c =>
    right
    dsimp only
    obtain ⟨hcmem, hcb, hcp⟩ := getTargetContainer_spec htc
    have hctype : c.stype = "container" := target_is_container htc hetype
    have hclook : getShape st c.id = some c := findShape_of_mem hInv.shapesNodup hcmem
    have hcid : c.id ≠ eid := by
      intro h
      have h2 : e = c := Option.some.inj (hge.symm.trans (h ▸ hclook))
      rw [← h2, hetype] at hctype
      simp at hctype
    cases hex : (bindingsFrom st c.id).find? (fun b => decide (b.toId = eid)) with
    | some ex =>
      dsimp only
      have hexmem : ex ∈ bindingsFrom st c.id := List.mem_of_find?_eq_some hex
      have hexto : ex.toId = eid := by simpa using List.find?_some hex
      have hexbnd : ex ∈ st.bindings := (mem_bindingsFromList.mp hexmem).1
      have hexfrom : ex.fromId = c.id := (mem_bindingsFromList.mp hexmem).2
      have hn1 : 1 ≤ (bindingsFrom st c.id).length := List.length_pos_of_mem hexmem
      by_cases hexi : ex.index = getBindingIndexForPosition st e c (elementAnchor e).1
      · rw [if_pos hexi]
        refine ⟨c, ?_⟩
        unfold resolveTargetOf
        rw [hge]
        exact htc
      · rw [if_neg hexi]
        set bu : Binding :=
          ⟨ex.id, ex.fromId, ex.toId, getBindingIndexForPosition st e c (elementAnchor e).1,
            true⟩ with hbu
        set sb := updateBindingRecord st bu with hsb
        have hbufrom : bu.fromId = c.id := hexfrom
        have hbuto : bu.toId = eid := hexto
        obtain ⟨l1, l2, hsplit, hmap⟩ :=
          replace_by_id hInv.bindingsNodup hexbnd (rfl : bu.id = ex.id)
        have hsbbnd : sb.bindings = l1 ++ bu :: l2 := hmap
        have hmem_sb : ∀ b ∈ sb.bindings, b = bu ∨ b ∈ st.bindings := by
          intro b hb
          rw [hsbbnd] at hb
          rcases List.mem_append.mp hb with h1 | h2
          · exact Or.inr (by rw [hsplit]; exact List.mem_append.mpr (Or.inl h1))
          · rcases List.mem_cons.mp h2 with rfl | h3
            · exact Or.inl rfl
            · exact Or.inr (by
                rw [hsplit]
                exact List.mem_append.mpr (Or.inr (List.mem_cons_of_mem _ h3)))
        have hfc : ∀ b ∈ sb.bindings, ∃ s, getShape sb b.fromId = some s ∧
            s.stype = "container" := by
          intro b hb
          rcases hmem_sb b hb with rfl | hbst
          · exact hInv.fromContainer ex hexbnd
          · exact hInv.fromContainer b hbst
        have hte : ∀ b ∈ sb.bindings, ∃ s, getShape sb b.toId = some s ∧
            s.stype = "element" := by
          intro b hb
          rcases hmem_sb b hb with rfl | hbst
          · exact hInv.toElement ex hexbnd
          · exact hInv.toElement b hbst
        have hlen : (bindingsFrom sb c.id).length = (bindingsFrom st c.id).length := by
          show (bindingsFromList sb.bindings c.id).length =
            (bindingsFromList st.bindings c.id).length
          rw [hsbbnd]
          conv_rhs => rw [hsplit]
          rw [bindingsFromList_append, bindingsFromList_append]
          have h1 : bindingsFromList (bu :: l2) c.id = bu :: bindingsFromList l2 c.id := by
            show (if bu.fromId = c.id then bu :: bindingsFromList l2 c.id
              else bindingsFromList l2 c.id) = _
            rw [if_pos hbufrom]
          have h2 : bindingsFromList (ex :: l2) c.id = ex :: bindingsFromList l2 c.id := by
            show (if ex.fromId = c.id then ex :: bindingsFromList l2 c.id
              else bindingsFromList l2 c.id) = _
            rw [if_pos hexfrom]
          rw [h1, h2]
          simp
        have hnem : bindingsFrom sb bu.fromId ≠ [] := by
          have hm : bu ∈ bindingsFrom sb bu.fromId := mem_bindingsFromList.mpr
            ⟨by rw [hsbbnd]; exact List.mem_append.mpr (Or.inr (List.mem_cons_self _ _)), rfl⟩
          intro h
          rw [h] at hm
          simp at hm
        have hcafter := uefc_container sb bu c
          (by show getShape st bu.fromId = some c; rw [hbufrom]; exact hclook) hnem
          (container_not_member_of sb hfc hte bu.fromId)
        rw [hbufrom, hlen] at hcafter
        obtain ⟨hw, hh⟩ := (hInv.settled c hcmem hctype).1 hn1
        have hcc : ({ c with width := rowWidth (bindingsFrom st c.id).length, height := 148 } : Shape) = c := by
          rw [← hw, ← hh]
        rw [hcc] at hcafter
        have hge2 : getShape (onAfterChange sb bu) eid = some e := by
          have h := uefc_self_element sb bu rfl (by rw [hbuto, hbufrom]; exact Ne.symm hcid)
          rw [hbuto] at h
          rw [show onAfterChange sb bu = (updateElementsForContainer sb bu).1 from rfl, h]
          exact hge
        have hcmem' : c ∈ (updateElementsForContainer sb bu).1.shapes := findShape_mem hcafter
        obtain ⟨t, ht⟩ := topShapeAt_isSome hcmem' hcb hcp
        refine ⟨t, ?_⟩
        unfold resolveTargetOf
        rw [hge2]
        exact ht
    | none =>
      dsimp only
      set bn : Binding :=
        ⟨st.nextBindingId, c.id, eid, getBindingIndexForPosition st e c (elementAnchor e).1,
          true⟩ with hbn
      set sb := createBindingRecord st bn with hsb
      have hsbbnd : sb.bindings = st.bindings ++ [bn] := rfl
      have hfc : ∀ b ∈ sb.bindings, ∃ s, getShape sb b.fromId = some s ∧
          s.stype = "container" := by
        intro b hb
        rw [hsbbnd] at hb
        rcases List.mem_append.mp hb with h1 | h2
        · exact hInv.fromContainer b h1
        · rcases List.mem_cons.mp h2 with rfl | h3
          · exact ⟨c, hclook, hctype⟩
          · simp at h3
      have hte : ∀ b ∈ sb.bindings, ∃ s, getShape sb b.toId = some s ∧
          s.stype = "element" := by
        intro b hb
        rw [hsbbnd] at hb
        rcases List.mem_append.mp hb with h1 | h2
        · exact hInv.toElement b h1
        · rcases List.mem_cons.mp h2 with rfl | h3
          · exact ⟨e, hge, hetype⟩
          · simp at h3
      have hlen : (bindingsFrom sb bn.fromId).length = (bindingsFrom st c.id).length + 1 := by
        show (bindingsFromList (st.bindings ++ [bn]) c.id).length = _
        rw [bindingsFromList_append]
        have h1 : bindingsFromList [bn] c.id = [bn] := by
          show (if bn.fromId = c.id then bn :: bindingsFromList [] c.id
            else bindingsFromList [] c.id) = [bn]
          rw [if_pos rfl]
          rfl
        rw [h1]
        simp [bindingsFrom]
      have hnem : bindingsFrom sb bn.fromId ≠ [] := by
        have hm : bn ∈ bindingsFrom sb bn.fromId := mem_bindingsFromList.mpr
          ⟨by rw [hsbbnd]; exact List.mem_append.mpr (Or.inr (List.mem_cons_self _ _)), rfl⟩
        intro h
        rw [h] at hm
        simp at hm
      have hcafter := uefc_container sb bn c
        (by show getShape st bn.fromId = some c; exact hclook) hnem
        (container_not_member_of sb hfc hte bn.fromId)
      rw [hlen] at hcafter
      obtain ⟨hble, hhle⟩ := settled_bounds (hInv.settled c hcmem hctype)
        (Nat.le_succ (bindingsFrom st c.id).length) (by omega)
      have hcp'' : containsPoint ({ c with width := rowWidth ((bindingsFrom st c.id).length + 1), height := 148 } : Shape) (elementAnchor e).1 (elementAnchor e).2 := by
        refine ⟨hcp.1, ?_, hcp.2.2.1, ?_⟩
        · calc (elementAnchor e).1 ≤ c.x + c.width := hcp.2.1
            _ ≤ c.x + rowWidth ((bindingsFrom st c.id).length + 1) := by linarith
        · calc (elementAnchor e).2 ≤ c.y + c.height := hcp.2.2.2
            _ ≤ c.y + 148 := by linarith
      have hge2 : getShape (onAfterCreate sb bn) eid = some e := by
        have h := uefc_self_element sb bn rfl
          (show bn.toId ≠ bn.fromId from Ne.symm hcid)
        rw [show onAfterCreate sb bn = (updateElementsForContainer sb bn).1 from rfl]
        rw [show bn.toId = eid from rfl] at h
        rw [h]
        exact hge
      have hcmem' : ({ c with width := rowWidth ((bindingsFrom st c.id).length + 1), height := 148 } : Shape) ∈ (updateElementsForContainer sb bn).1.shapes :=
        findShape_mem hcafter
      obtain ⟨t, ht⟩ := topShapeAt_isSome hcmem' hcb hcp''
      refine ⟨t, ?_⟩
      unfold resolveTargetOf
      rw [hge2]
      exact ht

theorem moveShape_elem (st : EditorState) (eid : ℕ) (px py : ℚ)
    (hel : IsElementShape st eid) : IsElementShape (moveShape st eid px py) eid := by
  obtain ⟨e, hge, hety⟩ := hel
  obtain ⟨e', hge', -, hty'⟩ :=
    exists_shape_of_idstype (updateShapePos_idstype st eid px py) hge
  exact ⟨e', hge', hty'.trans hety⟩

/-- With a resolved target, the drag-end handler leaves the element with
exactly one binding: fresh, committed, and to the target container. -/
theorem drag_end_target {st : EditorState} {eid : ℕ} {c : Shape} (hInv : EngineInv st)
    (hres : resolveTargetOf st eid = some c) :
    ∃ b, bindingsTo (onTranslateEndBody st eid) eid = [b] ∧ b.fromId = c.id ∧
      b.toId = eid ∧ b.placeholder = false ∧ b.id = st.nextBindingId := by
  unfold resolveTargetOf at hres
  cases hge : getShape st eid with
  | none =>
    rw [hge] at hres
    simp at hres
  | some e =>
    rw [hge] at hres
    dsimp only at hres
    unfold onTranslateEndBody
    rw [hge]
    dsimp only
    rw [hres]
    dsimp only
    set st1 := deleteBindingsAndReflow st (bindingsTo st eid) with hst1
    set bnew : Binding :=
      ⟨st1.nextBindingId, c.id, eid, getBindingIndexForPosition st e c (elementAnchor e).1,
        false⟩ with hbnew
    refine ⟨bnew, ?_, rfl, rfl, rfl, ?_⟩
    · show bindingsToList (onAfterCreate (createBindingRecord st1 bnew) bnew).bindings eid = [bnew]
      have hb : (onAfterCreate (createBindingRecord st1 bnew) bnew).bindings =
          st1.bindings ++ [bnew] := (uefc_bindings _ _).1
      rw [hb, bindingsToList_append]
      have h0 : bindingsToList st1.bindings eid = [] :=
        bindingsTo_after_delete st eid hInv.bindingsNodup
      have h1 : bindingsToList [bnew] eid = [bnew] := by
        show (if bnew.toId = eid then bnew :: bindingsToList [] eid
          else bindingsToList [] eid) = [bnew]
        rw [if_pos rfl]
        rfl
      rw [h0, h1]
      rfl
    · show st1.nextBindingId = st.nextBindingId
      exact (deleteBindingsAndReflow_bindings st _).2

/-- Claim C3: the drag-end handler repeats the target computation; with a
resolved target it deletes every relationship to the dragged element (from
any container) and creates exactly one fresh committed relationship to the
target; and when no target resolves at the end of the drag, the element
carries zero layout relationships. -/
theorem drag_end_characterisation (st : EditorState) (eid : ℕ) (px py : ℚ)
    (hInv : EngineInv st) (hel : IsElementShape st eid) :
    (∀ c, resolveTargetOf (translateMove st eid px py) eid = some c →
      ∃ b, bindingsTo (onTranslateEndBody (translateMove st eid px py) eid) eid = [b] ∧
        b.fromId = c.id ∧ b.toId = eid ∧ b.placeholder = false ∧
        b.id = (translateMove st eid px py).nextBindingId) ∧
    (resolveTargetOf (translateMove st eid px py) eid = none →
      bindingsTo (onTranslateEndBody (translateMove st eid px py) eid) eid = []) := by
  have hInvm : EngineInv (translateMove st eid px py) :=
    translateMove_inv st eid px py hInv hel
  constructor
  · intro c hres
    exact drag_end_target hInvm hres
  · intro hnone
    have hend : onTranslateEndBody (translateMove st eid px py) eid =
        translateMove st eid px py := by
      unfold resolveTargetOf at hnone
      cases hgem : getShape (translateMove st eid px py) eid with
      | none =>
        unfold onTranslateEndBody
        rw [hgem]
      | some em =>
        rw [hgem] at hnone
        dsimp only at hnone
        unfold onTranslateEndBody
        rw [hgem]
        dsimp only
        rw [hnone]
    rw [hend]
    rcases body_none_or_target (moveShape st eid px py) eid
      (moveShape_inv st eid px py hInv) (moveShape_elem st eid px py hel) with h | ⟨t, ht⟩
    · exact h
    · rw [show translateMove st eid px py =
        onTranslateBody (moveShape st eid px py) eid from rfl] at hnone
      exact absurd (ht.symm.trans hnone) (by simp)

theorem fold_markPlaceholders_idstype : ∀ (items : List Binding) (s : EditorState) (j : ℕ),
    (getShape (items.foldl (fun s b => onAfterChange (updateBindingRecord s b) b) s) j).map
        (fun s => (s.id, s.stype)) = (getShape s j).map (fun s => (s.id, s.stype)) := by
  intro items
  induction items with
  | nil => intro s j; rfl
  | cons b rest ih =>
    intro s j
    simp only [List.foldl_cons]
    rw [ih]
    exact uefc_idstype (updateBindingRecord s b) b j

theorem onTranslateStart_elem (st : EditorState) (eid : ℕ)
    (hel : IsElementShape st eid) : IsElementShape (onTranslateStart st eid) eid := by
  obtain ⟨e, hge, hety⟩ := hel
  obtain ⟨e', hge', -, hty'⟩ :=
    exists_shape_of_idstype (fold_markPlaceholders_idstype _ st) hge
  exact ⟨e', hge', hty'.trans hety⟩

/-- A committed one-member layout next to an unrelated empty container: the
element 2 sits in container 1, and container 3 is empty far to the right. -/
def dragDemoState : EditorState :=
  ⟨[⟨1, "container", 0, 0, 148, 148⟩, ⟨2, "element", 24, 24, 100, 100⟩,
    ⟨3, "container", 1000, 0, 148, 148⟩], [⟨10, 1, 2, 1, false⟩], 11⟩

/-- The mid-drag state after starting a drag of element 2 and moving it over
container 3. -/
def dragDemoMid : EditorState :=
  translateMove (onTranslateStart dragDemoState 2) 2 1024 24

theorem dragDemoInv : EngineInv dragDemoState := by
  refine ⟨⟨?_, ?_, ?_, ?_, ?_, ?_, ?_, ?_⟩, ?_⟩
  · decide
  · decide
  · decide
  · intro b hb
    rw [show dragDemoState.bindings = [⟨10, 1, 2, 1, false⟩] from rfl,
      List.mem_singleton] at hb
    subst hb
    exact ⟨⟨1, "container", 0, 0, 148, 148⟩, rfl, rfl⟩
  · intro b hb
    rw [show dragDemoState.bindings = [⟨10, 1, 2, 1, false⟩] from rfl,
      List.mem_singleton] at hb
    subst hb
    exact ⟨⟨2, "element", 24, 24, 100, 100⟩, rfl, rfl⟩
  · decide
  · decide
  · decide
  · intro s hs hst
    rw [show dragDemoState.shapes = [⟨1, "container", 0, 0, 148, 148⟩,
      ⟨2, "element", 24, 24, 100, 100⟩, ⟨3, "container", 1000, 0, 148, 148⟩] from rfl] at hs
    rcases List.mem_cons.mp hs with rfl | hs1
    · constructor
      · intro _
        constructor
        · show (148 : ℚ) = rowWidth (bindingsFrom dragDemoState 1).length
          norm_num [bindingsFrom, bindingsFromList, dragDemoState, rowWidth]
        · rfl
      · intro h0
        exfalso
        norm_num [bindingsFrom, bindingsFromList, dragDemoState] at h0
    · rcases List.mem_cons.mp hs1 with rfl | hs2
      · simp at hst
      · rcases List.mem_cons.mp hs2 with rfl | hs3
        · constructor
          · intro hn
            exfalso
            norm_num [bindingsFrom, bindingsFromList, dragDemoState] at hn
          · intro _
            exact ⟨by norm_num, by norm_num⟩
        · simp at hs3

theorem dragDemoReach : Reachable dragDemoState dragDemoMid :=
  Reachable.tail
    (Reachable.tail (Reachable.refl _) (DragStep.start dragDemoState 2 (by decide)))
    (DragStep.move (onTranslateStart dragDemoState 2) 2 1024 24
      (onTranslateStart_elem dragDemoState 2 (by decide)))

/-- A committed one-member layout with no other container anywhere. -/
def staleDemoState : EditorState :=
  ⟨[⟨1, "container", 0, 0, 148, 148⟩, ⟨2, "element", 24, 24, 100, 100⟩],
    [⟨10, 1, 2, 1, false⟩], 11⟩

/-- The state after a drag move of element 2 far away from its container:
the no-target branch deletes the last relationship of container 1. -/
def staleDemoAfter : EditorState := translateMove staleDemoState 2 1000 1000

theorem staleDemoInv : EngineInv staleDemoState := by
  refine ⟨⟨?_, ?_, ?_, ?_, ?_, ?_, ?_, ?_⟩, ?_⟩
  · decide
  · decide
  · decide
  · intro b hb
    rw [show staleDemoState.bindings = [⟨10, 1, 2, 1, false⟩] from rfl,
      List.mem_singleton] at hb
    subst hb
    exact ⟨⟨1, "container", 0, 0, 148, 148⟩, rfl, rfl⟩
  · intro b hb
    rw [show staleDemoState.bindings = [⟨10, 1, 2, 1, false⟩] from rfl,
      List.mem_singleton] at hb
    subst hb
    exact ⟨⟨2, "element", 24, 24, 100, 100⟩, rfl, rfl⟩
  · decide
  · decide
  · decide
  · intro s hs hst
    rw [show staleDemoState.shapes = [⟨1, "container", 0, 0, 148, 148⟩,
      ⟨2, "element", 24, 24, 100, 100⟩] from rfl] at hs
    rcases List.mem_cons.mp hs with rfl | hs1
    · constructor
      · intro _
        constructor
        · show (148 : ℚ) = rowWidth (bindingsFrom staleDemoState 1).length
          norm_num [bindingsFrom, bindingsFromList, staleDemoState, rowWidth]
        · rfl
      · intro h0
        exfalso
        norm_num [bindingsFrom, bindingsFromList, staleDemoState] at h0
    · rcases List.mem_cons.mp hs1 with rfl | hs2
      · simp at hst
      · simp at hs2

theorem staleDemoReach : Reachable staleDemoState staleDemoAfter :=
  Reachable.tail (Reachable.refl _)
    (DragStep.move staleDemoState 2 1000 1000 (by decide))

/-- Claim C4, counterexample to the final clause as stated: from an invariant
state, a drag start followed by one drag move over a second container leaves
the mid-drag element with layout relationships held simultaneously by two
containers (the stale placeholder in container 1 and the new placeholder in
container 3). -/
theorem two_containers_hold_mid_drag :
    EngineInv dragDemoState ∧ Reachable dragDemoState dragDemoMid ∧
      (bindingsTo dragDemoMid 2).map Binding.fromId = [1, 3] := by
  refine ⟨dragDemoInv, dragDemoReach, ?_⟩
  norm_num [dragDemoMid, dragDemoState, translateMove, onTranslateStart, onTranslateBody,
    moveShape, updateShapePos, bindingsTo, bindingsToList, bindingsFrom, bindingsFromList,
    updateBindingRecord, onAfterChange, onAfterCreate, updateElementsForContainer,
    getShape, findShape, sortBindings, insertByIndex, reflowLoop, updateShapeSize,
    elementAnchor, getTargetContainer, topShapeAt, containsPoint, canBindShapes,
    shapeUtilCanBind, ContainerShapeUtil_canBind, ElementShapeUtil_canBind,
    getBindingIndexForPosition, jsRound, jsClamp, listGet?, getIndexBetween,
    CONTAINER_PADDING, createBindingRecord, deleteBindingsAndReflow, removeByIds,
    onAfterDelete]

/-- Claim C4 (amended): in every state reachable from an invariant state
under the drag operations, each (container, element) pair carries at most one
layout relationship, and each element has at most one committed
(non-placeholder) incoming relationship; mid-drag, two containers can hold a
placeholder relationship to the same element at once. -/
theorem pair_unique_one_active (st₀ st : EditorState) (hInv : EngineInv st₀)
    (hr : Reachable st₀ st) :
    st.bindings.Pairwise (fun a b => a.fromId = b.fromId → a.toId ≠ b.toId) ∧
      st.bindings.Pairwise (fun a b => a.toId = b.toId →
        a.placeholder = true ∨ b.placeholder = true) :=
  ⟨(reachable_inv hr hInv).pairUnique, (reachable_inv hr hInv).oneActive⟩

theorem pair_unique_one_active_witness :
    dragDemoMid.bindings.Pairwise (fun a b => a.fromId = b.fromId → a.toId ≠ b.toId) ∧
      dragDemoMid.bindings.Pairwise (fun a b => a.toId = b.toId →
        a.placeholder = true ∨ b.placeholder = true) :=
  pair_unique_one_active dragDemoState dragDemoMid dragDemoInv dragDemoReach

/-- Claim C5: in every state reachable from an invariant state through the
drag-resolution engine, sorting the layout relationships of any single
container by index key is a permutation of them that is strictly increasing,
so the keys form a strict total order with no ties. -/
theorem ordering_determinism (st₀ st : EditorState) (cid : ℕ) (hInv : EngineInv st₀)
    (hr : Reachable st₀ st) :
    List.Perm (sortBindings (bindingsFrom st cid)) (bindingsFrom st cid) ∧
      (sortBindings (bindingsFrom st cid)).Pairwise (fun a b => a.index < b.index) :=
  ⟨sortBindings_perm _,
    sortBindings_bindingsFrom_strict st cid (reachable_inv hr hInv).keysUnique⟩

theorem ordering_determinism_witness :
    List.Perm (sortBindings (bindingsFrom dragDemoMid 3)) (bindingsFrom dragDemoMid 3) ∧
      (sortBindings (bindingsFrom dragDemoMid 3)).Pairwise (fun a b => a.index < b.index) :=
  ordering_determinism dragDemoState dragDemoMid 3 dragDemoInv dragDemoReach

/-- Claim C6, counterexample: dragging the single member far away deletes
the container's last relationship, the reflow early-returns on the empty
member list, and the container keeps its stale one-member width 148 instead
of the formula value for zero members. -/
theorem stale_size_after_last_removal :
    EngineInv staleDemoState ∧ Reachable staleDemoState staleDemoAfter ∧
      bindingsFrom staleDemoAfter 1 = [] ∧
      getShape staleDemoAfter 1 = some ⟨1, "container", 0, 0, 148, 148⟩ ∧
      (148 : ℚ) ≠ rowWidth (bindingsFrom staleDemoAfter 1).length := by
  refine ⟨staleDemoInv, staleDemoReach, ?_, ?_, ?_⟩ <;>
  norm_num [staleDemoAfter, staleDemoState, translateMove, onTranslateStart, onTranslateBody,
    moveShape, updateShapePos, bindingsTo, bindingsToList, bindingsFrom, bindingsFromList,
    updateBindingRecord, onAfterChange, onAfterCreate, updateElementsForContainer,
    getShape, findShape, sortBindings, insertByIndex, reflowLoop, updateShapeSize,
    elementAnchor, getTargetContainer, topShapeAt, containsPoint, canBindShapes,
    shapeUtilCanBind, ContainerShapeUtil_canBind, ElementShapeUtil_canBind,
    getBindingIndexForPosition, jsRound, jsClamp, listGet?, getIndexBetween,
    CONTAINER_PADDING, createBindingRecord, deleteBindingsAndReflow, removeByIds,
    onAfterDelete, rowWidth]

/-- Claim C6 (amended): in every state reachable from an invariant state, a
container with at least one member carries exactly the formula size of its
member count; after removal of the last member the reflow is a no-op and the
stored size may remain stale. -/
theorem container_size_settled (st₀ st : EditorState) (hInv : EngineInv st₀)
    (hr : Reachable st₀ st) :
    ∀ s ∈ st.shapes, s.stype = "container" →
      1 ≤ (bindingsFrom st s.id).length →
      s.width = rowWidth (bindingsFrom st s.id).length ∧ s.height = 148 :=
  fun s hs hst => ((reachable_inv hr hInv).settled s hs hst).1

theorem container_size_settled_witness :
    (⟨3, "container", 1000, 0, 148, 148⟩ : Shape) ∈ dragDemoMid.shapes ∧
      1 ≤ (bindingsFrom dragDemoMid 3).length ∧
      (⟨3, "container", 1000, 0, 148, 148⟩ : Shape).width =
        rowWidth (bindingsFrom dragDemoMid 3).length ∧
      (⟨3, "container", 1000, 0, 148, 148⟩ : Shape).height = 148 := by
  have hmem : (⟨3, "container", 1000, 0, 148, 148⟩ : Shape) ∈ dragDemoMid.shapes := by
    norm_num [dragDemoMid, dragDemoState, translateMove, onTranslateStart, onTranslateBody,
      moveShape, updateShapePos, bindingsTo, bindingsToList, bindingsFrom, bindingsFromList,
      updateBindingRecord, onAfterChange, onAfterCreate, updateElementsForContainer,
      getShape, findShape, sortBindings, insertByIndex, reflowLoop, updateShapeSize,
      elementAnchor, getTargetContainer, topShapeAt, containsPoint, canBindShapes,
      shapeUtilCanBind, ContainerShapeUtil_canBind, ElementShapeUtil_canBind,
      getBindingIndexForPosition, jsRound, jsClamp, listGet?, getIndexBetween,
      CONTAINER_PADDING, createBindingRecord, deleteBindingsAndReflow, removeByIds,
      onAfterDelete]
  have hlen : 1 ≤ (bindingsFrom dragDemoMid 3).length := by
    norm_num [dragDemoMid, dragDemoState, translateMove, onTranslateStart, onTranslateBody,
      moveShape, updateShapePos, bindingsTo, bindingsToList, bindingsFrom, bindingsFromList,
      updateBindingRecord, onAfterChange, onAfterCreate, updateElementsForContainer,
      getShape, findShape, sortBindings, insertByIndex, reflowLoop, updateShapeSize,
      elementAnchor, getTargetContainer, topShapeAt, containsPoint, canBindShapes,
      shapeUtilCanBind, ContainerShapeUtil_canBind, ElementShapeUtil_canBind,
      getBindingIndexForPosition, jsRound, jsClamp, listGet?, getIndexBetween,
      CONTAINER_PADDING, createBindingRecord, deleteBindingsAndReflow, removeByIds,
      onAfterDelete]
  exact ⟨hmem, hlen, container_size_settled dragDemoState dragDemoMid dragDemoInv
    dragDemoReach _ hmem rfl hlen⟩

theorem drag_end_characterisation_witness :
    (∀ c, resolveTargetOf (translateMove dragDemoState 2 1024 24) 2 = some c →
      ∃ b, bindingsTo (onTranslateEndBody (translateMove dragDemoState 2 1024 24) 2) 2 = [b] ∧
        b.fromId = c.id ∧ b.toId = 2 ∧ b.placeholder = false ∧
        b.id = (translateMove dragDemoState 2 1024 24).nextBindingId) ∧
    (resolveTargetOf (translateMove dragDemoState 2 1024 24) 2 = none →
      bindingsTo (onTranslateEndBody (translateMove dragDemoState 2 1024 24) 2) 2 = []) :=
  drag_end_characterisation dragDemoState 2 1024 24 dragDemoInv (by decide)
